import Mathlib

/-!
Verification of the directional-fuzzer core ("vector" repository).

This file gives a shallow embedding, in Lean 4, of the deterministic parts of
the fuzzer's mutation engine, knowledge store and graph engine, translated
from the C++ sources (`src/graph.cc`, `src/loss.cc`, `src/knowledge.cc`,
`src/fuzzer.cc`), and proves or refutes the specified properties about them.

Modelling conventions:
* `u32` basic-block offsets and `u8` input bytes are modelled as `ℕ`
  (byte values carry the invariant `< 256` where it matters).
* IEEE-754 doubles are modelled as exact rationals `ℚ`.  `std::sqrt` is
  modelled by `sqrtQ`, which agrees with the real square root on squares of
  rationals (the only points where any theorem below depends on its value).
* `std::unordered_map` is modelled as an association list; the C++ iteration
  order is unspecified, the association list fixes one order.
* The graph engine's PRNG draws are modelled as explicit parameters
  (`noise` for the fresh-node embedding initialisation).  The Node2Vec
  training pass `UpdateEmbeddings` is randomised, so functions of the source
  that first update the graph and then compute on it are modelled as
  functions of the post-update graph state.
-/

namespace VectorFuzz

/-- An execution trace: a finite sequence of 32-bit basic-block offsets
(`ExecTrace` = `std::vector<u32>` in `types.hh`). -/
abbrev ExecTrace := List ℕ

/-- A fuzz input: a finite sequence of octets
(`FuzzInput` = `std::vector<u8>` in `types.hh`). -/
abbrev FuzzInput := List ℕ

/-- A `(trace, input)` pair produced by one run of the target
(`FuzzExecution` in `types.hh`). -/
structure FuzzExecution where
  trace : ExecTrace
  input : FuzzInput
deriving Repr, DecidableEq

/-- An embedding vector (`Embedding` = `std::vector<double>` in `graph.hh`). -/
abbrev Embedding := List ℚ

/-- Exact-rational stand-in for `std::sqrt` on nonnegative doubles
(`Rat.sqrt` takes the integer square roots of numerator and denominator, and
coincides with the real square root on squares of rationals — the only
points where any theorem below depends on its value). -/
def sqrtQ (x : ℚ) : ℚ :=
  Rat.sqrt x

/-- `ExploredGraph` (from `graph.hh`): adjacency list, embedding table and the
Node2Vec parameters.  The C++ `std::mt19937 rng` member is not part of the
state model (random draws are passed explicitly where the code uses them). -/
structure ExploredGraph where
  graph : List (ℕ × List ℕ)
  embeddings : List (ℕ × Embedding)
  embedding_dim : ℕ
  p : ℚ
  q : ℚ
  walk_length : ℕ
  num_walks : ℕ
  window_size : ℕ
  learning_rate : ℚ
  ZERO_EMBEDDING : Embedding
deriving Repr, DecidableEq

namespace ExploredGraph

/-- `ExploredGraph::GetNodeEmbedding` (from `graph.hh`): the stored embedding,
or the zero vector of dimension `embedding_dim` for an unknown node. -/
def GetNodeEmbedding (g : ExploredGraph) (node : ℕ) : Embedding :=
  match g.embeddings.lookup node with
  | some e => e
  | none => List.replicate g.embedding_dim 0

/-- The squared-distance accumulation of `ExploredGraph::EmbeddingDistance`
(`graph.cc`): sum of squared differences over the common prefix bounded by
`embedding_dim`, plus the squares of any extra in-bound components of either
vector. -/
def EmbeddingDistSq (g : ExploredGraph) (emb1 emb2 : Embedding) : ℚ :=
  let dim := min g.embedding_dim (min emb1.length emb2.length)
  ((List.range dim).map fun d => (emb2.getD d 0 - emb1.getD d 0) ^ 2).sum
    + (((List.range (min emb1.length g.embedding_dim)).drop dim).map
        fun d => emb1.getD d 0 ^ 2).sum
    + (((List.range (min emb2.length g.embedding_dim)).drop dim).map
        fun d => emb2.getD d 0 ^ 2).sum

/-- `ExploredGraph::EmbeddingDistance` (`graph.cc`): Euclidean distance,
`std::sqrt` modelled by `sqrtQ`. -/
def EmbeddingDistance (g : ExploredGraph) (emb1 emb2 : Embedding) : ℚ :=
  sqrtQ (g.EmbeddingDistSq emb1 emb2)

/-- `ExploredGraph::GetNodeDistance` (`graph.cc`). -/
def GetNodeDistance (g : ExploredGraph) (node1 node2 : ℕ) : ℚ :=
  g.EmbeddingDistance (g.GetNodeEmbedding node1) (g.GetNodeEmbedding node2)

/-- `ExploredGraph::GetNodeDistanceWithOrigin` (`graph.cc`). -/
def GetNodeDistanceWithOrigin (g : ExploredGraph) (node : ℕ) : ℚ :=
  g.EmbeddingDistance (g.GetNodeEmbedding node) g.ZERO_EMBEDDING

/-- One step of the accumulation loop of `ExploredGraph::MeanEmbedding`
(`graph.cc`): if the node has an embedding, add its first `embedding_dim`
components into the accumulator and bump the count. -/
def meanStep (g : ExploredGraph) (acc : Embedding × ℕ) (node : ℕ) :
    Embedding × ℕ :=
  match g.embeddings.lookup node with
  | some emb =>
      ((List.range g.embedding_dim).map fun i => acc.1.getD i 0 + emb.getD i 0,
       acc.2 + 1)
  | none => acc

/-- `ExploredGraph::MeanEmbedding` (`graph.cc`): rejects an empty trace
(`std::logic_error`, modelled as `none`); otherwise sums the embeddings of
the trace positions whose node has one and divides by their count (the
zero vector when the count is zero). -/
def MeanEmbedding (g : ExploredGraph) (trace : ExecTrace) : Option Embedding :=
  if trace.isEmpty then none
  else
    let r := trace.foldl g.meanStep (List.replicate g.embedding_dim 0, 0)
    some (if 0 < r.2 then r.1.map fun x => x / (r.2 : ℚ) else r.1)

end ExploredGraph

/-- `CosineSimilarity` (`loss.cc`): dot product and magnitudes over the longer
of the two lengths (missing components read as 0); `0` when either magnitude
is zero. -/
def CosineSimilarity (tr1 tr2 : Embedding) : ℚ :=
  let l := max tr1.length tr2.length
  let dot := ((List.range l).map fun i => tr1.getD i 0 * tr2.getD i 0).sum
  let mag1 := ((List.range l).map fun i => tr1.getD i 0 * tr1.getD i 0).sum
  let mag2 := ((List.range l).map fun i => tr2.getD i 0 * tr2.getD i 0).sum
  if mag1 = 0 ∨ mag2 = 0 then 0 else dot / sqrtQ (mag1 * mag2)

/-- The deterministic tail of `EmbeddingLoss` (`loss.cc`), as a function of the
graph state `g` obtained after the source's update steps
(`UpdateGraphFromTrace` on both traces followed by the randomised
`UpdateEmbeddings`): mean embeddings of both walks on that same state, cosine
similarity, then `(similarity + 1) / 2`.  Empty traces are contract errors
(`std::logic_error`, modelled as `none`). -/
def EmbeddingLossPost (g : ExploredGraph) (forbidden_walk walk : ExecTrace) :
    Option ℚ :=
  if walk.isEmpty then none
  else if forbidden_walk.isEmpty then none
  else
    match g.MeanEmbedding walk, g.MeanEmbedding forbidden_walk with
    | some emb_walk, some emb_forbidden =>
        some ((CosineSimilarity emb_walk emb_forbidden + 1) / 2)
    | _, _ => none

/-- The `dy` loop shared by `ComputeBehavioralGradient` and
`ComputeLossGradientWithTrace` (`fuzzer.cc`): at each position up to the
longer trace length, the embedding distance between the two traces' nodes,
or the node-to-origin distance when only one trace reaches that far. -/
def computeDy (g : ExploredGraph) (y1 y2 : ExecTrace) : List ℚ :=
  (List.range (max y1.length y2.length)).map fun i =>
    if i < y1.length ∧ i < y2.length then
      g.GetNodeDistance (y1.getD i 0) (y2.getD i 0)
    else if i < y1.length then g.GetNodeDistanceWithOrigin (y1.getD i 0)
    else g.GetNodeDistanceWithOrigin (y2.getD i 0)

/-- `ComputeBehavioralGradient` (`fuzzer.cc`), as a function of the graph
state `g` after the source's update steps.  `fe1` is the first argument at
the call site (the forbidden execution), `fe2` the second (the current one).
`dx[j] = x2[j] - x1[j]` with missing bytes read as 0; the Jacobian entry is
`dy[i]/dx[j]` when `dx[j] ≠ 0`, else `0`. -/
def ComputeBehavioralGradient (g : ExploredGraph) (fe1 fe2 : FuzzExecution) :
    List (List ℚ) :=
  let dy := computeDy g fe1.trace fe2.trace
  let max_dim_x := max fe1.input.length fe2.input.length
  let dx := (List.range max_dim_x).map fun j =>
    (fe2.input.getD j 0 : ℚ) - (fe1.input.getD j 0 : ℚ)
  (List.range (max fe1.trace.length fe2.trace.length)).map fun i =>
    (List.range max_dim_x).map fun j =>
      if dx.getD j 0 ≠ 0 then dy.getD i 0 / dx.getD j 0 else 0

/-- `ComputeLossGradientWithTrace` (`fuzzer.cc`), as a function of the graph
state `g1` after the update steps inside `EmbeddingLoss` (the `dy` distances
are read from the same state, as both happen before the next update):
`dL_dy[i] = loss / dy[i]` when `dy[i] ≠ 0`, else `loss`.  `none` models the
`std::logic_error` thrown by `EmbeddingLoss` on an empty trace. -/
def ComputeLossGradientWithTrace (g1 : ExploredGraph)
    (forbidden_walk current_walk : ExecTrace) : Option (List ℚ) :=
  match EmbeddingLossPost g1 forbidden_walk current_walk with
  | none => none
  | some loss =>
      let dy := computeDy g1 forbidden_walk current_walk
      some ((List.range (max forbidden_walk.length current_walk.length)).map
        fun i => if dy.getD i 0 ≠ 0 then loss / dy.getD i 0 else loss)

/-- `std::round` on exact rationals: round half away from zero. -/
def roundQ (x : ℚ) : ℤ :=
  if x < 0 then -⌊-x + 1/2⌋ else ⌊x + 1/2⌋

/-- `std::fmod` on exact rationals: `x - y * trunc (x / y)` (truncation
toward zero). -/
def fmodQ (x y : ℚ) : ℚ :=
  x - y * (if x / y < 0 then ⌈x / y⌉ else ⌊x / y⌋)

/-- The clamp-and-wrap applied to the real-valued byte update
(`fuzzer.cc`): a negative value clamps to `0`; a value above `255` is
reduced by `fmod(update, 256)`. -/
def updClamp (update : ℚ) : ℚ :=
  if update < 0 then 0
  else if 255 < update then fmodQ update 256
  else update

/-- The chain-rule product `dL_dx = jacobianᵀ · dL_dy` of
`GenerateNewInputWithGradientDescent` (`fuzzer.cc`):
`dL_dx[j] = Σ_i jacobian[i][j] · dL_dy[i]`. -/
def genDLdx (jacobian : List (List ℚ)) (dL_dy : List ℚ) : List ℚ :=
  (List.range (jacobian.headD []).length).map fun j =>
    ((List.range jacobian.length).map fun i =>
      (jacobian.getD i []).getD j 0 * dL_dy.getD i 0).sum

/-- `GenerateNewInputWithGradientDescent` (`fuzzer.cc`), as a function of the
graph states `g1` (after the update inside `EmbeddingLoss`) and `g2` (after
the further update inside `ComputeBehavioralGradient`).  Computes
`dL_dx = jacobianᵀ · dL_dy`, then per byte: a byte with exploration speed
`≤ 0` is copied from the current input (0 past its end); otherwise
`u = x_c[j] - η[j]·dL_dx[j]` is clamped and wrapped by `updClamp`, rounded,
and cast to an octet (the cast is modelled as reduction mod 256).  `none`
models the thrown `std::logic_error`s (empty trace, empty Jacobian, size
mismatches); the source's local variables `max_dim_y` and `max_dim_x` are
written out as `(jacobian).length` and `((jacobian).headD []).length`. -/
def GenerateNewInputWithGradientDescent (g1 g2 : ExploredGraph)
    (forbidden_execution current_execution : FuzzExecution)
    (exploration_speed : List ℚ) : Option FuzzInput :=
  match ComputeLossGradientWithTrace g1 forbidden_execution.trace
      current_execution.trace with
  | none => none
  | some dL_dy =>
      if (ComputeBehavioralGradient g2 forbidden_execution
          current_execution).isEmpty then none
      else if ((ComputeBehavioralGradient g2 forbidden_execution
          current_execution).headD []).isEmpty then none
      else if dL_dy.isEmpty then none
      else if ¬ ((ComputeBehavioralGradient g2 forbidden_execution
          current_execution).all fun row =>
            row.length = ((ComputeBehavioralGradient g2 forbidden_execution
              current_execution).headD []).length) then none
      else if (ComputeBehavioralGradient g2 forbidden_execution
          current_execution).length ≠ dL_dy.length then none
      else if exploration_speed.length ≠ ((ComputeBehavioralGradient g2
          forbidden_execution current_execution).headD []).length then none
      else
        some ((List.range ((ComputeBehavioralGradient g2 forbidden_execution
            current_execution).headD []).length).map fun j =>
          if exploration_speed.getD j 0 ≤ 0 then
            current_execution.input.getD j 0
          else
            (roundQ (updClamp ((current_execution.input.getD j 0 : ℚ) -
              exploration_speed.getD j 0 *
              (genDLdx (ComputeBehavioralGradient g2 forbidden_execution
                current_execution) dL_dy).getD j 0))).toNat % 256)

/-- The resize step of `FuzzerThread::FreezeBytesForNewTrace` (`fuzzer.cc`):
grow the exploration-speed vector to the longer input length, new components
starting at the default `0.01`. -/
def freezeGrown (exploration_speed : List ℚ)
    (old_input new_input : FuzzInput) : List ℚ :=
  if exploration_speed.length < max old_input.length new_input.length then
    exploration_speed ++
      List.replicate
        (max old_input.length new_input.length - exploration_speed.length)
        (1/100)
  else exploration_speed

/-- `FuzzerThread::FreezeBytesForNewTrace` (`fuzzer.cc`): grow the
exploration-speed vector to the longer input length, then set the component
of every byte index whose value differs between the two inputs (missing
bytes read as 0) to `-1.0`. -/
def FreezeBytesForNewTrace (exploration_speed : List ℚ)
    (old_input new_input : FuzzInput) : List ℚ :=
  ((freezeGrown exploration_speed old_input new_input).zip
      (List.range (freezeGrown exploration_speed old_input new_input).length)).map
    fun sv =>
      if sv.2 < max old_input.length new_input.length ∧
          old_input.getD sv.2 0 ≠ new_input.getD sv.2 0 then -1
      else sv.1

/-- The per-component update of `FuzzerThread::AccelerateExplorationSpeed`
(`fuzzer.cc`): a negative speed gains `acceleration` and is capped at `1.0`
if it becomes positive; a positive speed gains `acceleration * 0.1` capped
at `1.0`; an exactly-zero speed is left unchanged. -/
def accelStep (acceleration speed : ℚ) : ℚ :=
  if speed < 0 then
    if 0 < speed + acceleration then min (speed + acceleration) 1
    else speed + acceleration
  else if 0 < speed then min (speed + acceleration * (1/10)) 1
  else speed

/-- `FuzzerThread::AccelerateExplorationSpeed` (`fuzzer.cc`). -/
def AccelerateExplorationSpeed (acceleration : ℚ) (exploration_speed : List ℚ) :
    List ℚ :=
  exploration_speed.map (accelStep acceleration)

/-- `t` iterations of the thaw step (`AccelerateExplorationSpeed` is called
once per loop iteration in `FuzzerThread::Run`). -/
def thawSteps (acceleration : ℚ) : ℕ → List ℚ → List ℚ
  | 0, eta => eta
  | t + 1, eta => thawSteps acceleration t (AccelerateExplorationSpeed acceleration eta)

/-- Replace the value stored under `key` in an association list (models
`std::unordered_map::operator[]` on a present key). -/
def assocSet {α : Type} (l : List (ℕ × α)) (key : ℕ) (v : α) : List (ℕ × α) :=
  l.map fun kv => if kv.1 = key then (key, v) else kv

namespace ExploredGraph

/-- The node-insertion step of `ExploredGraph::UpdateGraphFromTrace`
(`graph.cc`): insert `node` with an empty adjacency list if it is not yet a
key of the adjacency map. -/
def addNodeKey (g : ExploredGraph) (node : ℕ) : ExploredGraph :=
  if (g.graph.lookup node).isSome then g
  else { g with graph := g.graph ++ [(node, [])] }

/-- The embedding-initialisation step of `ExploredGraph::UpdateGraphFromTrace`
(`graph.cc`): give `node` a fresh noise embedding of `embedding_dim`
components if it has none (`noise node d` models the `d`-th
uniform(-0.1, 0.1) draw of the source's RNG for that node). -/
def addNodeEmb (noise : ℕ → ℕ → ℚ) (g : ExploredGraph) (node : ℕ) :
    ExploredGraph :=
  if (g.embeddings.lookup node).isSome then g
  else { g with embeddings := g.embeddings ++
          [(node, (List.range g.embedding_dim).map (noise node))] }

/-- The edge-insertion step of `ExploredGraph::UpdateGraphFromTrace`
(`graph.cc`): append the edge `node → next` unless already present. -/
def addEdge (g : ExploredGraph) (node next : ℕ) : ExploredGraph :=
  if next ∈ (g.graph.lookup node).getD [] then g
  else { g with graph :=
          assocSet g.graph node ((g.graph.lookup node).getD [] ++ [next]) }

/-- One iteration of the loop of `ExploredGraph::UpdateGraphFromTrace`
(`graph.cc`) at a trace position holding `node`, with `next?` the node at the
following position (if any). -/
def absorbStep (noise : ℕ → ℕ → ℚ) (g : ExploredGraph) (node : ℕ)
    (next? : Option ℕ) : ExploredGraph :=
  match next? with
  | none => addNodeEmb noise (addNodeKey g node) node
  | some next => addEdge (addNodeEmb noise (addNodeKey g node) node) node next

/-- The loop of `ExploredGraph::UpdateGraphFromTrace` over the remaining
trace positions. -/
def absorbGo (noise : ℕ → ℕ → ℚ) : ExploredGraph → ExecTrace → ExploredGraph
  | g, [] => g
  | g, node :: rest => absorbGo noise (absorbStep noise g node rest.head?) rest

/-- `ExploredGraph::UpdateGraphFromTrace` (`graph.cc`): absorb a trace into
the graph, adding unseen nodes (with fresh noise embeddings) and unseen
consecutive-pair edges. -/
def UpdateGraphFromTrace (noise : ℕ → ℕ → ℚ) (g : ExploredGraph)
    (trace : ExecTrace) : ExploredGraph :=
  absorbGo noise g trace

end ExploredGraph

/-- The predicate "this trace position's node has an embedding". -/
def hasEmb (g : ExploredGraph) (n : ℕ) : Bool :=
  (g.embeddings.lookup n).isSome

/-- The embedding component the `MeanEmbedding` loop reads for a node. -/
def embAt (g : ExploredGraph) (n i : ℕ) : ℚ :=
  ((g.embeddings.lookup n).getD []).getD i 0

/-- "`n` is a key of the adjacency map". -/
def nodeIn (g : ExploredGraph) (n : ℕ) : Bool :=
  (g.graph.lookup n).isSome

/-- "the directed edge `a → b` is recorded in `a`'s adjacency list". -/
def edgeIn (g : ExploredGraph) (a b : ℕ) : Prop :=
  b ∈ (g.graph.lookup a).getD []

/-- The graph-engine invariants of the spec: every key of the adjacency map
has an embedding; every stored embedding has exactly `embedding_dim`
components; every neighbor in any adjacency list is itself a key of the
adjacency map; and no adjacency list holds a duplicate edge (an edge is
added at most once per source). -/
def GraphInv (g : ExploredGraph) : Prop :=
  (∀ e ∈ g.graph, (g.embeddings.lookup e.1).isSome = true) ∧
  (∀ e ∈ g.embeddings, e.2.length = g.embedding_dim) ∧
  (∀ e ∈ g.graph, ∀ m ∈ e.2, (g.graph.lookup m).isSome = true) ∧
  (∀ e ∈ g.graph, e.2.Nodup)

/-- Neighbor-closure up to a pending suffix of the trace: every neighbor is
a key of the adjacency map, or still waits at a later trace position (the
source adds the edge to `trace[i+1]` one loop iteration before it inserts
`trace[i+1]` as a node). -/
def ClosureExcept (g : ExploredGraph) (pending : List ℕ) : Prop :=
  ∀ e ∈ g.graph, ∀ m ∈ e.2, (g.graph.lookup m).isSome = true ∨ m ∈ pending

/-- The effective settings (`Settings` in `settings.hh`), restricted to the
fields the knowledge store serialises. -/
structure Settings where
  input_min : ℕ
  input_max : ℕ
  input_step : ℕ
  thread_count : ℕ
  max_history_count : ℕ
  target_program : String
  tracer_lib : String
  drrun_path : String
  work_dir : String
deriving Repr, DecidableEq

/-- `FuzzerKnowledge` (`knowledge.hh`): the fixed-capacity ring buffer of
executions, its write index, the settings and the graph engine.  The
non-serialised `checkpoint_filepath` member is passed to the operations that
consult it. -/
structure FuzzerKnowledge where
  history : List FuzzExecution
  history_index : ℕ
  settings : Settings
  graph : ExploredGraph
deriving Repr, DecidableEq

/-- The duplicate test of `FuzzerKnowledge::AddExecutionIfDifferent`
(`knowledge.cc`) against one slot: a non-empty stored trace of the same
length whose bytes (`memcmp`) coincide with the new trace. -/
def slotMatches (slot : FuzzExecution) (newTrace : ExecTrace) : Bool :=
  if slot.trace.isEmpty then false
  else if slot.trace.length ≠ newTrace.length then false
  else slot.trace = newTrace

/-- Result of a knowledge-store operation that can throw: `thrown msg st`
models a C++ exception escaping with message `msg` while the store has
already reached state `st`. -/
inductive StoreResult (α : Type) where
  | ok (value : α)
  | thrown (msg : String) (state : FuzzerKnowledge)
deriving Repr, DecidableEq

/-- `FuzzerKnowledge::AddExecutionIfDifferent` (`knowledge.cc`).  Throws on an
empty trace or input; returns not-added (state untouched) when some
non-empty slot holds a byte-identical trace; otherwise writes the execution
at `history_index`, advances the index modulo `max_history_count`, updates
the graph (absorb, then the randomised `UpdateEmbeddings`, modelled by the
caller-supplied `train`), and finally writes the checkpoint.
`SerializeKnowledge` throws `std::runtime_error` when the file cannot be
opened or written; `checkpoint_ok` tells whether that write succeeds, and a
failure is modelled faithfully to the source: the exception propagates out
of the insert (the source's `best-effort` comment notwithstanding, there is
no `try`/`catch` around the `SerializeKnowledge` call). -/
def AddExecutionIfDifferent (k : FuzzerKnowledge) (execution : FuzzExecution)
    (noise : ℕ → ℕ → ℚ) (train : ExploredGraph → ExploredGraph)
    (checkpoint_filepath_nonempty : Bool) (checkpoint_ok : Bool) :
    StoreResult (Bool × FuzzerKnowledge) :=
  if execution.trace.isEmpty then
    .thrown "Cannot add execution with empty trace to knowledge" k
  else if execution.input.isEmpty then
    .thrown "Cannot add execution with empty input to knowledge" k
  else if k.history.any (slotMatches · execution.trace) then
    .ok (false, k)
  else
    let k1 : FuzzerKnowledge :=
      { k with
        history := k.history.set k.history_index execution,
        history_index := (k.history_index + 1) % k.settings.max_history_count,
        graph := train (ExploredGraph.UpdateGraphFromTrace noise k.graph
          execution.trace) }
    if checkpoint_filepath_nonempty ∧ ¬checkpoint_ok then
      .thrown "SerializeKnowledge: failed to open file for writing" k1
    else
      .ok (true, k1)

/-- One encoded item of the checkpoint byte stream (`knowledge.cc`).  Each
constructor stands for the raw little-endian bytes the source writes: a
1-byte bool, a 4-byte `u32`, a single byte, an 8-byte IEEE double, or the
raw bytes of a string. -/
inductive Token where
  | boolb (x : Bool)
  | w (x : ℕ)
  | byte (x : ℕ)
  | d (x : ℚ)
  | str (x : String)
deriving Repr, DecidableEq

/-- `WriteString` (`knowledge.cc`): length prefix then raw bytes. -/
def WriteString (s : String) : List Token :=
  [.w s.length, .str s]

/-- `WriteU8Vector` (`knowledge.cc`). -/
def WriteU8Vector (v : FuzzInput) : List Token :=
  .w v.length :: v.map .byte

/-- `WriteU32Vector` (`knowledge.cc`). -/
def WriteU32Vector (v : List ℕ) : List Token :=
  .w v.length :: v.map .w

/-- `WriteEmbedding` (`knowledge.cc`). -/
def WriteEmbedding (e : Embedding) : List Token :=
  .w e.length :: e.map .d

/-- `WriteFuzzExecution` (`knowledge.cc`): trace then input. -/
def WriteFuzzExecution (exec : FuzzExecution) : List Token :=
  WriteU32Vector exec.trace ++ WriteU8Vector exec.input

/-- The settings block written by `SerializeKnowledge` (`knowledge.cc`):
the input-size triple, thread count, max history count, and the four path
strings. -/
def SerializeSettings (s : Settings) : List Token :=
  [.w s.input_min, .w s.input_max, .w s.input_step,
   .w s.thread_count, .w s.max_history_count]
  ++ WriteString s.target_program
  ++ WriteString s.tracer_lib
  ++ WriteString s.drrun_path
  ++ WriteString s.work_dir

/-- The graph payload written by `SerializeKnowledge` (`knowledge.cc`):
embedding dimension, Node2Vec parameters, adjacency list, embedding table,
zero embedding. -/
def SerializeGraphPayload (g : ExploredGraph) : List Token :=
  [.w g.embedding_dim]
  ++ [.d g.p, .d g.q, .w g.walk_length, .w g.num_walks,
      .w g.window_size, .d g.learning_rate]
  ++ [.w g.graph.length]
  ++ (g.graph.map fun entry => .w entry.1 :: WriteU32Vector entry.2).flatten
  ++ [.w g.embeddings.length]
  ++ (g.embeddings.map fun entry => .w entry.1 :: WriteEmbedding entry.2).flatten
  ++ WriteEmbedding g.ZERO_EMBEDDING

/-- `SerializeKnowledge` (`knowledge.cc`): endianness flag, settings,
history index, ring contents, then the graph payload.  `machine_le` is the
writing machine's endianness (`IsLittleEndian()`). -/
def SerializeKnowledge (machine_le : Bool) (k : FuzzerKnowledge) : List Token :=
  [.boolb machine_le]
  ++ SerializeSettings k.settings
  ++ [.w k.history_index]
  ++ [.w k.history.length]
  ++ (k.history.map WriteFuzzExecution).flatten
  ++ SerializeGraphPayload k.graph

/-- Read one `u32` from the stream. -/
def readW : List Token → Option (ℕ × List Token)
  | .w x :: rest => some (x, rest)
  | _ => none

/-- Read one byte from the stream. -/
def readByte : List Token → Option (ℕ × List Token)
  | .byte x :: rest => some (x, rest)
  | _ => none

/-- Read one bool from the stream. -/
def readBool : List Token → Option (Bool × List Token)
  | .boolb x :: rest => some (x, rest)
  | _ => none

/-- `ReadDouble` (`knowledge.cc`). -/
def ReadDouble : List Token → Option (ℚ × List Token)
  | .d x :: rest => some (x, rest)
  | _ => none

/-- Read `n` consecutive items with the element reader `p`. -/
def readN {α : Type} (p : List Token → Option (α × List Token)) :
    ℕ → List Token → Option (List α × List Token)
  | 0, ts => some ([], ts)
  | n + 1, ts =>
      match p ts with
      | none => none
      | some (a, ts1) =>
          match readN p n ts1 with
          | none => none
          | some (as, ts2) => some (a :: as, ts2)

/-- `ReadString` (`knowledge.cc`): length prefix, then exactly that many
bytes. -/
def ReadString (ts : List Token) : Option (String × List Token) := do
  let (len, ts1) ← readW ts
  match ts1 with
  | .str s :: rest => if s.length = len then some (s, rest) else none
  | _ => none

/-- `ReadU8Vector` (`knowledge.cc`). -/
def ReadU8Vector (ts : List Token) : Option (FuzzInput × List Token) := do
  let (size, ts1) ← readW ts
  readN readByte size ts1

/-- `ReadU32Vector` (`knowledge.cc`). -/
def ReadU32Vector (ts : List Token) : Option (List ℕ × List Token) := do
  let (size, ts1) ← readW ts
  readN readW size ts1

/-- `ReadEmbedding` (`knowledge.cc`). -/
def ReadEmbedding (ts : List Token) : Option (Embedding × List Token) := do
  let (size, ts1) ← readW ts
  readN ReadDouble size ts1

/-- `ReadFuzzExecution` (`knowledge.cc`). -/
def ReadFuzzExecution (ts : List Token) :
    Option (FuzzExecution × List Token) := do
  let (trace, ts1) ← ReadU32Vector ts
  let (input, ts2) ← ReadU8Vector ts1
  some (⟨trace, input⟩, ts2)

/-- One adjacency-list entry as read by `DeserializeKnowledge`. -/
def readAdjEntry (ts : List Token) :
    Option ((ℕ × List ℕ) × List Token) := do
  let (node, ts1) ← readW ts
  let (neighbors, ts2) ← ReadU32Vector ts1
  some ((node, neighbors), ts2)

/-- One embedding-table entry as read by `DeserializeKnowledge`, including
its dimension validation against `embedding_dim`. -/
def readEmbEntry (dim : ℕ) (ts : List Token) :
    Option ((ℕ × Embedding) × List Token) := do
  let (node, ts1) ← readW ts
  let (emb, ts2) ← ReadEmbedding ts1
  if emb.length = dim then some ((node, emb), ts2) else none

/-- The settings block read by `DeserializeKnowledge` (`knowledge.cc`). -/
def readSettings (ts : List Token) : Option (Settings × List Token) := do
  let (imin, ts) ← readW ts
  let (imax, ts) ← readW ts
  let (istep, ts) ← readW ts
  let (tc, ts) ← readW ts
  let (mhc, ts) ← readW ts
  let (target, ts) ← ReadString ts
  let (tracer, ts) ← ReadString ts
  let (drrun, ts) ← ReadString ts
  let (wdir, ts) ← ReadString ts
  some ({ input_min := imin, input_max := imax, input_step := istep,
          thread_count := tc, max_history_count := mhc,
          target_program := target, tracer_lib := tracer,
          drrun_path := drrun, work_dir := wdir }, ts)

/-- The Node2Vec-parameter block read by `DeserializeKnowledge`
(`knowledge.cc`): embedding dimension, `p`, `q`, walk length, walks per
node, window size, learning rate. -/
def readParams (ts : List Token) :
    Option ((ℕ × ℚ × ℚ × ℕ × ℕ × ℕ × ℚ) × List Token) := do
  let (dim, ts) ← readW ts
  let (pv, ts) ← ReadDouble ts
  let (qv, ts) ← ReadDouble ts
  let (wl, ts) ← readW ts
  let (nw, ts) ← readW ts
  let (ws, ts) ← readW ts
  let (lr, ts) ← ReadDouble ts
  some ((dim, pv, qv, wl, nw, ws, lr), ts)

/-- The adjacency-list block read by `DeserializeKnowledge`
(`knowledge.cc`): node count, then per node its id and neighbor list. -/
def readAdjList (ts : List Token) :
    Option (List (ℕ × List ℕ) × List Token) := do
  let (num_nodes, ts) ← readW ts
  readN readAdjEntry num_nodes ts

/-- The embedding-table block read by `DeserializeKnowledge`
(`knowledge.cc`): entry count, then per node its id and embedding, each
validated against `dim`. -/
def readEmbTable (dim : ℕ) (ts : List Token) :
    Option (List (ℕ × Embedding) × List Token) := do
  let (num_embeddings, ts) ← readW ts
  readN (readEmbEntry dim) num_embeddings ts

/-- The graph payload read by `DeserializeKnowledge` (`knowledge.cc`):
parameters, adjacency list, embedding table, then the zero embedding
(validated against the read dimension). -/
def readGraphPayload (ts : List Token) :
    Option (ExploredGraph × List Token) := do
  let ((dim, pv, qv, wl, nw, ws, lr), ts) ← readParams ts
  let (adj, ts) ← readAdjList ts
  let (embs, ts) ← readEmbTable dim ts
  let (zero_emb, ts) ← ReadEmbedding ts
  if zero_emb.length = dim then
    some ({ graph := adj, embeddings := embs, embedding_dim := dim,
            p := pv, q := qv, walk_length := wl, num_walks := nw,
            window_size := ws, learning_rate := lr,
            ZERO_EMBEDDING := zero_emb }, ts)
  else none

/-- `DeserializeKnowledge` (`knowledge.cc`): refuses an endianness mismatch,
reads the settings, the history index (validated against
`max_history_count`), the history size (validated to equal
`max_history_count`), the ring contents, and the graph payload.  Any read
failure or validation failure (`std::runtime_error` in the source) is
`none`. -/
def DeserializeKnowledge (machine_le : Bool) (ts : List Token) :
    Option FuzzerKnowledge := do
  let (file_le, ts) ← readBool ts
  if file_le = machine_le then do
    let (settings, ts) ← readSettings ts
    let (hidx, ts) ← readW ts
    if hidx < settings.max_history_count then do
      let (hsize, ts) ← readW ts
      if hsize = settings.max_history_count then do
        let (hist, ts) ← readN ReadFuzzExecution hsize ts
        let (g, _) ← readGraphPayload ts
        some { history := hist, history_index := hidx,
               settings := settings, graph := g }
      else none
    else none
  else none

/-! ### Concrete states for witnesses and counterexamples -/

/-- A concrete graph state: two isolated nodes, node `1` with embedding
`[3,0,0,0]` and node `2` with the zero embedding; the constructor-default
Node2Vec parameters of `FuzzerKnowledge` (`knowledge.cc`). -/
def gEx : ExploredGraph :=
  { graph := [(1, []), (2, [])],
    embeddings := [(1, [3, 0, 0, 0]), (2, [0, 0, 0, 0])],
    embedding_dim := 4, p := 1, q := 1, walk_length := 10, num_walks := 5,
    window_size := 3, learning_rate := 1/40, ZERO_EMBEDDING := [0, 0, 0, 0] }

/-- A concrete graph state with no nodes and no embeddings (the state at
startup with an empty checkpoint). -/
def gEmpty : ExploredGraph :=
  { graph := [], embeddings := [], embedding_dim := 4, p := 1, q := 1,
    walk_length := 10, num_walks := 5, window_size := 3, learning_rate := 1,
    ZERO_EMBEDDING := [0, 0, 0, 0] }

/-- A concrete settings record. -/
def sEx : Settings :=
  { input_min := 1, input_max := 2, input_step := 1, thread_count := 1,
    max_history_count := 2, target_program := "t", tracer_lib := "l",
    drrun_path := "d", work_dir := "w" }

/-- A concrete knowledge store: capacity 2, one occupied slot holding
trace `[1]`, write index 1. -/
def kEx : FuzzerKnowledge :=
  { history := [⟨[1], [2]⟩, ⟨[], []⟩], history_index := 1,
    settings := sEx, graph := gEx }

/-- A degenerate noise source (every fresh-embedding draw is 0, a value the
source's uniform(-0.1, 0.1) draw can produce). -/
def zeroNoise : ℕ → ℕ → ℚ := fun _ _ => 0

/-! ### Helper lemmas -/

theorem sqrtQ_mul_self {a : ℚ} (h : 0 ≤ a) : sqrtQ (a * a) = a := by
  rw [sqrtQ, Rat.sqrt_eq, abs_of_nonneg h]

theorem getD_range_map (f : ℕ → ℚ) {n i : ℕ} (h : i < n) :
    ((List.range n).map f).getD i 0 = f i := by
  simp [List.getD_eq_getElem?_getD, List.getElem?_map, List.getElem?_range h]

theorem meanFold_spec (g : ExploredGraph) (l : List ℕ) (acc : Embedding × ℕ)
    (hlen : acc.1.length = g.embedding_dim) :
    (l.foldl g.meanStep acc).1.length = g.embedding_dim ∧
    (l.foldl g.meanStep acc).2 = acc.2 + (l.filter (hasEmb g)).length ∧
    ∀ i, i < g.embedding_dim →
      (l.foldl g.meanStep acc).1.getD i 0 =
        acc.1.getD i 0 + ((l.filter (hasEmb g)).map (embAt g · i)).sum := by
  induction l generalizing acc with
  | nil => simp [hlen]
  | cons n l ih =>
      rcases h : g.embeddings.lookup n with _ | emb
      · have hstep : g.meanStep acc n = acc := by
          simp [ExploredGraph.meanStep, h]
        have hfil : (n :: l).filter (hasEmb g) = l.filter (hasEmb g) := by
          simp [List.filter_cons_of_neg, hasEmb, h]
        rw [List.foldl_cons, hstep, hfil]
        exact ih acc hlen
      · have hstep : g.meanStep acc n =
            ((List.range g.embedding_dim).map fun i =>
                acc.1.getD i 0 + emb.getD i 0, acc.2 + 1) := by
          simp [ExploredGraph.meanStep, h]
        have hfil : (n :: l).filter (hasEmb g) =
            n :: l.filter (hasEmb g) := by
          simp [List.filter_cons_of_pos, hasEmb, h]
        have hacc' : ((List.range g.embedding_dim).map fun i =>
            acc.1.getD i 0 + emb.getD i 0).length = g.embedding_dim := by
          simp
        rw [List.foldl_cons, hstep, hfil]
        obtain ⟨h1, h2, h3⟩ := ih ((List.range g.embedding_dim).map fun i =>
          acc.1.getD i 0 + emb.getD i 0, acc.2 + 1) hacc'
        refine ⟨h1, by rw [h2, List.length_cons]; omega, fun i hi => ?_⟩
        rw [h3 i hi, getD_range_map _ hi]
        simp only [List.map_cons, List.sum_cons, embAt, h, Option.getD_some]
        ring

/-! ### C10 — mean embedding is the per-occurrence average -/

/-- C10: `MeanEmbedding` of a non-empty trace averages, per occurrence, the
embeddings of the positions whose node has one (a node appearing `k` times
contributes `k` times); the divisor is the number of such positions; if no
position's node has an embedding the result is the `D`-dimensional zero
vector; an empty trace is rejected as a contract error. -/
theorem C10_mean_embedding (g : ExploredGraph) (trace : ExecTrace) :
    (trace = [] → g.MeanEmbedding trace = none) ∧
    (trace ≠ [] → ∃ r, g.MeanEmbedding trace = some r ∧
      r.length = g.embedding_dim ∧
      ((trace.filter (hasEmb g)).length = 0 →
        r = List.replicate g.embedding_dim 0) ∧
      (0 < (trace.filter (hasEmb g)).length → ∀ i, i < g.embedding_dim →
        r.getD i 0 = ((trace.filter (hasEmb g)).map (embAt g · i)).sum /
          ((trace.filter (hasEmb g)).length : ℚ))) := by
  constructor
  · intro h; simp [ExploredGraph.MeanEmbedding, h]
  · intro h
    obtain ⟨h1, h2, h3⟩ := meanFold_spec g trace
      (List.replicate g.embedding_dim 0, 0) (by simp)
    set r0 := trace.foldl g.meanStep (List.replicate g.embedding_dim 0, 0)
      with hr0
    have hme : g.MeanEmbedding trace =
        some (if 0 < r0.2 then r0.1.map fun x => x / (r0.2 : ℚ) else r0.1) := by
      simp [ExploredGraph.MeanEmbedding, h]
    rcases Nat.eq_zero_or_pos (trace.filter (hasEmb g)).length with hz | hp
    · refine ⟨r0.1, ?_, h1, fun _ => ?_, fun hcon => absurd hcon (by omega)⟩
      · rw [hme, if_neg (by omega)]
      · have hfil : trace.filter (hasEmb g) = [] := List.length_eq_zero.mp hz
        refine List.ext_getElem (by simp [h1]) fun i hi1 hi2 => ?_
        have hidim : i < g.embedding_dim := by omega
        have hthis := h3 i hidim
        rw [hfil] at hthis
        simp only [List.map_nil, List.sum_nil, add_zero] at hthis
        rw [← List.getD_eq_getElem _ (0:ℚ) hi1, hthis, List.getElem_replicate,
          List.getD_eq_getElem _ _ (by simpa using hidim),
          List.getElem_replicate]
    · have hpos : 0 < r0.2 := by rw [h2]; omega
      refine ⟨r0.1.map fun x => x / (r0.2 : ℚ), ?_, by simp [h1],
        fun hcon => absurd hcon (by omega), fun _ i hi => ?_⟩
      · rw [hme, if_pos hpos]
      · have hilt : i < r0.1.length := by omega
        rw [List.getD_eq_getElem _ _ (by simpa using hilt), List.getElem_map,
          ← List.getD_eq_getElem _ (0:ℚ) hilt, h3 i hi, h2]
        simp

theorem C10_mean_embedding_witness :
    ∃ r, gEx.MeanEmbedding [1, 2, 1] = some r ∧ r.length = gEx.embedding_dim :=
  have h := (C10_mean_embedding gEx [1, 2, 1]).2 (by decide)
  ⟨h.choose, h.choose_spec.1, h.choose_spec.2.1⟩

/-! ### C2, C9, C3 — the knowledge store's try-insert -/

theorem slotMatches_iff {slot : FuzzExecution} {t : ExecTrace} :
    slotMatches slot t = true ↔ slot.trace ≠ [] ∧ slot.trace = t := by
  unfold slotMatches
  split_ifs with h1 h2
  · simp only [List.isEmpty_iff] at h1
    simp [h1]
  · constructor
    · intro hc; cases hc
    · rintro ⟨hne, heq⟩; exact absurd (by rw [heq]) h2
  · simp only [decide_eq_true_eq]
    constructor
    · intro heq
      refine ⟨?_, heq⟩
      intro hnil
      exact h1 (by simp [hnil])
    · exact fun h => h.2

/-- C2: for an execution with non-empty trace and non-empty input (and a
successful checkpoint write), try-insert returns *added* iff the trace is
byte-unequal to the trace in every currently non-empty ring slot; and when
it returns *added* it has written the execution into `slot[write_idx]` and
advanced `write_idx` by one modulo capacity. -/
theorem C2_insert_determinism (k : FuzzerKnowledge) (execution : FuzzExecution)
    (noise : ℕ → ℕ → ℚ) (train : ExploredGraph → ExploredGraph) (cf : Bool)
    (htr : execution.trace ≠ []) (hin : execution.input ≠ []) :
    ((∀ slot ∈ k.history, slot.trace ≠ [] → slot.trace ≠ execution.trace) ↔
      ∃ k1, AddExecutionIfDifferent k execution noise train cf true =
        .ok (true, k1)) ∧
    (∀ k1, AddExecutionIfDifferent k execution noise train cf true =
        .ok (true, k1) →
      k1.history = k.history.set k.history_index execution ∧
      k1.history_index =
        (k.history_index + 1) % k.settings.max_history_count) := by
  unfold AddExecutionIfDifferent
  rw [if_neg (by simpa [List.isEmpty_iff] using htr),
    if_neg (by simpa [List.isEmpty_iff] using hin)]
  by_cases hdup : k.history.any (slotMatches · execution.trace) = true
  · rw [if_pos hdup]
    obtain ⟨slot, hmem, hm⟩ := List.any_eq_true.mp hdup
    rw [slotMatches_iff] at hm
    constructor
    · constructor
      · intro hall
        exact absurd hm.2 (hall slot hmem hm.1)
      · rintro ⟨k1, hk1⟩
        exact absurd hk1 (by simp)
    · intro k1 hk1
      exact absurd hk1 (by simp)
  · rw [if_neg hdup]
    rw [if_neg (by simp : ¬(cf = true ∧ ¬true = true))]
    refine ⟨⟨fun _ => ⟨_, rfl⟩, fun _ slot hmem hne heq => ?_⟩,
      fun k1 hk1 => ?_⟩
    · exact hdup (List.any_eq_true.mpr ⟨slot, hmem, slotMatches_iff.mpr ⟨hne, heq⟩⟩)
    · obtain ⟨rfl⟩ : k1 = { k with
          history := k.history.set k.history_index execution,
          history_index :=
            (k.history_index + 1) % k.settings.max_history_count,
          graph := train (ExploredGraph.UpdateGraphFromTrace noise k.graph
            execution.trace) } := by
        cases hk1
        rfl
      exact ⟨rfl, rfl⟩

theorem C2_insert_determinism_witness :
    (([3] : ExecTrace) ≠ [] ∧ ([2] : FuzzInput) ≠ []) ∧
    (∃ k1, AddExecutionIfDifferent kEx ⟨[3], [2]⟩ zeroNoise id true true =
      .ok (true, k1)) := by
  have h := C2_insert_determinism kEx ⟨[3], [2]⟩ zeroNoise id true
    (by decide) (by decide)
  exact ⟨⟨by decide, by decide⟩, h.1.mp (by decide)⟩

/-- C9: whenever try-insert returns *not-added*, the returned store state is
exactly the state before the call — ring contents, write index, graph
adjacency and embedding table included (the duplicate check completes
before any mutation). -/
theorem C9_rejection_atomicity (k : FuzzerKnowledge) (execution : FuzzExecution)
    (noise : ℕ → ℕ → ℚ) (train : ExploredGraph → ExploredGraph)
    (cf cok : Bool) :
    ∀ k1, AddExecutionIfDifferent k execution noise train cf cok =
      .ok (false, k1) → k1 = k := by
  intro k1 hk1
  unfold AddExecutionIfDifferent at hk1
  split_ifs at hk1 <;>
    first
      | (cases hk1; rfl)
      | simp at hk1

theorem C9_rejection_atomicity_witness :
    AddExecutionIfDifferent kEx ⟨[1], [7]⟩ zeroNoise id true true =
      .ok (false, kEx) ∧ kEx = kEx := by
  constructor
  · rfl
  · exact C9_rejection_atomicity kEx ⟨[1], [7]⟩ zeroNoise id true true kEx rfl

/-- C3: the code contradicts the claim (and its own comment): when the
checkpoint write fails, `SerializeKnowledge`'s `std::runtime_error`
propagates out of `AddExecutionIfDifferent` — the insert does not return
*added*, even though the new trace was unique, the slot was written and the
graph updated.  Evaluated at a concrete failing input. -/
theorem C3_checkpoint_error_escapes :
    (∀ slot ∈ kEx.history, slot.trace ≠ [] → slot.trace ≠ [3]) ∧
    ∃ st, AddExecutionIfDifferent kEx ⟨[3], [2]⟩ zeroNoise id true false =
      .thrown "SerializeKnowledge: failed to open file for writing" st := by
  constructor
  · decide
  · exact ⟨_, rfl⟩

/-! ### C4 — freeze/thaw of the exploration-speed vector -/

theorem thawSteps_eq_map_iterate (a : ℚ) (t : ℕ) (eta : List ℚ) :
    thawSteps a t eta = eta.map ((accelStep a)^[t]) := by
  induction t generalizing eta with
  | zero => simp [thawSteps]
  | succ t ih =>
      rw [thawSteps, ih, AccelerateExplorationSpeed, List.map_map,
        Function.iterate_succ]

theorem accelStep_iterate_ge (a : ℚ) (ha : 0 ≤ a) :
    ∀ (t : ℕ) (c : ℚ), min 0 (c + t * a) ≤ (accelStep a)^[t] c := by
  intro t
  induction t with
  | zero => intro c; simp
  | succ t ih =>
      intro c
      rw [Function.iterate_succ_apply]
      refine le_trans ?_ (ih (accelStep a c))
      have hta : 0 ≤ (t : ℚ) * a := mul_nonneg (Nat.cast_nonneg t) ha
      unfold accelStep
      split_ifs with h1 h2 h3
      · have hpos : (0:ℚ) < min (c + a) 1 := lt_min h2 one_pos
        exact le_trans (min_le_left _ _) (le_min le_rfl (by linarith))
      · push_cast
        have heq : c + ((t:ℚ) + 1) * a = c + a + t * a := by ring
        rw [heq]
      · have hpos : (0:ℚ) < min (c + a * (1/10)) 1 :=
          lt_min (by linarith [not_lt.mp h1]) one_pos
        exact le_trans (min_le_left _ _) (le_min le_rfl (by linarith))
      · have hc0 : c = 0 := le_antisymm (not_lt.mp h3) (not_lt.mp h1)
        subst hc0
        exact le_trans (min_le_left _ _) (le_min le_rfl (by linarith))

theorem freezeGrown_length (eta : List ℚ) (old_input new_input : FuzzInput) :
    max old_input.length new_input.length ≤
      (freezeGrown eta old_input new_input).length := by
  unfold freezeGrown
  split_ifs with h
  · simp only [List.length_append, List.length_replicate]; omega
  · omega

theorem freeze_length (eta : List ℚ) (old_input new_input : FuzzInput) :
    (FreezeBytesForNewTrace eta old_input new_input).length =
      (freezeGrown eta old_input new_input).length := by
  simp [FreezeBytesForNewTrace, List.length_zip]

/-- C4 (amended): (a) immediately after `FreezeBytesForNewTrace`, every byte
index whose value differs between the two inputs (missing bytes read as 0)
has its component equal to `-1.0`; (b) freezing keeps every component
`≥ -1.0` when that held before; (c) after `t` thaw steps with acceleration
`a ≥ 0` and no intervening freeze, starting from components `≥ -1.0`, every
component is `≥ min(0, -1 + t·a)` — not `≥ min(1, -1 + t·a)` as claimed: a
component that lands exactly on `0` never moves again, and a positive
component grows only by `0.1·a` per step. -/
theorem C4_freeze_thaw :
    (∀ (eta : List ℚ) (old_input new_input : FuzzInput) (i : ℕ),
      i < max old_input.length new_input.length →
      old_input.getD i 0 ≠ new_input.getD i 0 →
      (FreezeBytesForNewTrace eta old_input new_input).getD i 0 = -1) ∧
    (∀ (eta : List ℚ) (old_input new_input : FuzzInput) (c : ℚ),
      (∀ x ∈ eta, -1 ≤ x) →
      c ∈ FreezeBytesForNewTrace eta old_input new_input → -1 ≤ c) ∧
    (∀ (a : ℚ) (t : ℕ) (eta : List ℚ) (c : ℚ), 0 ≤ a →
      (∀ x ∈ eta, -1 ≤ x) →
      c ∈ thawSteps a t eta → min 0 (-1 + t * a) ≤ c) := by
  refine ⟨fun eta old_input new_input i hi hdiff => ?_,
    fun eta old_input new_input c heta hc => ?_,
    fun a t eta c ha heta hc => ?_⟩
  · have hg := freezeGrown_length eta old_input new_input
    have hi' : i < (FreezeBytesForNewTrace eta old_input new_input).length := by
      rw [freeze_length]; omega
    rw [List.getD_eq_getElem _ _ hi']
    unfold FreezeBytesForNewTrace
    simp only [List.getElem_map, List.getElem_zip, List.getElem_range]
    rw [if_pos ⟨hi, hdiff⟩]
  · unfold FreezeBytesForNewTrace at hc
    obtain ⟨sv, hsv, rfl⟩ := List.mem_map.mp hc
    split_ifs with h
    · norm_num
    · have h1 := (List.of_mem_zip hsv).1
      unfold freezeGrown at h1
      split_ifs at h1 with hgrow
      · rcases List.mem_append.mp h1 with hl | hr
        · exact heta _ hl
        · rw [List.eq_of_mem_replicate hr]; norm_num
      · exact heta _ h1
  · rw [thawSteps_eq_map_iterate] at hc
    obtain ⟨x, hx, rfl⟩ := List.mem_map.mp hc
    refine le_trans ?_ (accelStep_iterate_ge a ha t x)
    exact min_le_min le_rfl (by have := heta x hx; linarith)

theorem freezeEx_eval : FreezeBytesForNewTrace [] [0] [1] = [-1] := by
  norm_num [FreezeBytesForNewTrace, freezeGrown, List.range_succ,
    List.range_zero, List.zip_cons_cons]

theorem thawEx_eval : thawSteps (3/2) 2 [-1] = [13/20] := by
  norm_num [thawSteps, AccelerateExplorationSpeed, accelStep]

/-- C4 counterexample: freeze the single differing byte of `[0] → [1]`
(component becomes `-1.0`), then thaw `t = 2` steps with acceleration
`a = 3/2`.  The claim's bound is `min(1, -1 + 2·(3/2)) = 1`, but the
component is `13/20`: the first step takes `-1` to `1/2` (capped crossing),
the second adds only `0.1·a`. -/
theorem C4_counterexample :
    thawSteps (3/2) 2 (FreezeBytesForNewTrace [] [0] [1]) = [13/20] ∧
    ¬ min 1 (-1 + (2 : ℕ) * (3/2 : ℚ)) ≤ 13/20 := by
  rw [freezeEx_eval, thawEx_eval]
  norm_num

theorem C4_freeze_thaw_witness :
    (FreezeBytesForNewTrace [] [0] [1]).getD 0 0 = -1 ∧
    min 0 (-1 + (2 : ℕ) * (3/2 : ℚ)) ≤ 13/20 := by
  constructor
  · exact C4_freeze_thaw.1 [] [0] [1] 0 (by decide) (by decide)
  · refine C4_freeze_thaw.2.2 (3/2) 2 [-1] (13/20) (by norm_num)
      (by norm_num) ?_
    rw [thawEx_eval]
    exact List.mem_singleton.mpr rfl

/-! ### C6 — embedding loss of a trace against itself -/

theorem cosineSimilarity_self (μ : Embedding)
    (hnz : ((List.range μ.length).map fun i => μ.getD i 0 * μ.getD i 0).sum
      ≠ 0) :
    CosineSimilarity μ μ = 1 := by
  unfold CosineSimilarity
  simp only [max_self]
  rw [if_neg (by tauto)]
  have hS : (0:ℚ) ≤ ((List.range μ.length).map
      fun i => μ.getD i 0 * μ.getD i 0).sum := by
    refine List.sum_nonneg fun x hx => ?_
    obtain ⟨i, _, rfl⟩ := List.mem_map.mp hx
    exact mul_self_nonneg _
  rw [sqrtQ_mul_self hS, div_self hnz]

/-- C6 (amended): the loss of a non-empty trace against itself, computed on
the (shared) post-update graph state, is exactly `1.0` whenever the trace's
mean embedding is nonzero (nonzero squared magnitude); when the mean
embedding is exactly the zero vector, cosine similarity is defined as `0`
and the loss is `1/2`, not `1`. -/
theorem C6_loss_identity (g : ExploredGraph) (y : ExecTrace) (hy : y ≠ [])
    (μ : Embedding) (hμ : g.MeanEmbedding y = some μ)
    (hnz : ((List.range μ.length).map fun i => μ.getD i 0 * μ.getD i 0).sum
      ≠ 0) :
    EmbeddingLossPost g y y = some 1 := by
  unfold EmbeddingLossPost
  rw [if_neg (by simpa [List.isEmpty_iff] using hy),
    if_neg (by simpa [List.isEmpty_iff] using hy), hμ]
  show some ((CosineSimilarity μ μ + 1) / 2) = some 1
  rw [cosineSimilarity_self μ hnz]
  norm_num

theorem C6_loss_identity_witness :
    gEx.MeanEmbedding [1] = some [3, 0, 0, 0] ∧
    EmbeddingLossPost gEx [1] [1] = some 1 := by
  have hμ : gEx.MeanEmbedding [1] = some [3, 0, 0, 0] := by
    simp +decide [ExploredGraph.MeanEmbedding, ExploredGraph.meanStep, gEx,
      List.lookup, List.range_succ]
  refine ⟨hμ, C6_loss_identity gEx [1] (by decide) [3, 0, 0, 0] hμ ?_⟩
  simp [List.range_succ]

/-- C6 counterexample: node `2` of `gEx` has the all-zero embedding (a value
the initialisation noise and training can produce), so the mean embedding of
the trace `[2]` is the zero vector, cosine similarity is `0` by definition,
and the loss of `[2]` against itself is `1/2`, not `1.0`.  The state is a
fixed point of the absorb step, so it is the post-update state for this
trace. -/
theorem C6_counterexample :
    ExploredGraph.UpdateGraphFromTrace zeroNoise gEx [2] = gEx ∧
    EmbeddingLossPost gEx [2] [2] = some (1/2) ∧ ((1:ℚ)/2) ≠ 1 := by
  refine ⟨rfl, ?_, by norm_num⟩
  simp +decide [EmbeddingLossPost, ExploredGraph.MeanEmbedding,
    ExploredGraph.meanStep, gEx, List.lookup, List.range_succ,
    CosineSimilarity]

/-! ### C1 — the behavioral Jacobian -/

theorem getD_range_map' {α : Type} (f : ℕ → α) (d : α) {n i : ℕ} (h : i < n) :
    ((List.range n).map f).getD i d = f i := by
  simp [List.getD_eq_getElem?_getD, List.getElem?_map, List.getElem?_range h]

/-- C1 (amended): the behavioral Jacobian has `max(|y_f|,|y_c|)` rows and
`max(|x_f|,|x_c|)` columns, and `J[i][j] = d_i / (x_c[j] − x_f[j])` when
`x_f[j] ≠ x_c[j]` (missing bytes read as 0), else `0` — the denominator is
`x_c[j] − x_f[j]` (the code computes `dx = x2 − x1` with `x1` the forbidden
and `x2` the current input), not `x_f[j] − x_c[j]` as claimed. -/
theorem C1_behavioral_jacobian (g : ExploredGraph) (fe_f fe_c : FuzzExecution) :
    (ComputeBehavioralGradient g fe_f fe_c).length =
      max fe_f.trace.length fe_c.trace.length ∧
    (∀ row ∈ ComputeBehavioralGradient g fe_f fe_c,
      row.length = max fe_f.input.length fe_c.input.length) ∧
    (∀ i j, i < max fe_f.trace.length fe_c.trace.length →
      j < max fe_f.input.length fe_c.input.length →
      ((ComputeBehavioralGradient g fe_f fe_c).getD i []).getD j 0 =
        if fe_f.input.getD j 0 ≠ fe_c.input.getD j 0 then
          (if i < fe_f.trace.length ∧ i < fe_c.trace.length then
            g.GetNodeDistance (fe_f.trace.getD i 0) (fe_c.trace.getD i 0)
          else if i < fe_f.trace.length then
            g.GetNodeDistanceWithOrigin (fe_f.trace.getD i 0)
          else g.GetNodeDistanceWithOrigin (fe_c.trace.getD i 0)) /
            ((fe_c.input.getD j 0 : ℚ) - (fe_f.input.getD j 0 : ℚ))
        else 0) := by
  refine ⟨by simp [ComputeBehavioralGradient], fun row hrow => ?_,
    fun i j hi hj => ?_⟩
  · simp only [ComputeBehavioralGradient, List.mem_map] at hrow
    obtain ⟨i, _, rfl⟩ := hrow
    simp
  · simp only [ComputeBehavioralGradient]
    rw [getD_range_map' _ _ hi, getD_range_map' _ _ hj,
      getD_range_map' _ _ hj]
    simp only [computeDy]
    rw [getD_range_map' _ _ hi]
    by_cases hne : fe_f.input.getD j 0 = fe_c.input.getD j 0
    · have hzero : ((fe_c.input.getD j 0 : ℚ)) - (fe_f.input.getD j 0 : ℚ)
          = 0 := by
        rw [hne, sub_self]
      rw [if_neg (not_not_intro hzero), if_neg (not_not_intro hne)]
    · have hsub : ((fe_c.input.getD j 0 : ℚ)) - (fe_f.input.getD j 0 : ℚ)
          ≠ 0 := by
        refine sub_ne_zero.mpr ?_
        exact_mod_cast Ne.symm hne
      rw [if_pos hsub, if_pos hne]

theorem C1_behavioral_jacobian_witness :
    (ComputeBehavioralGradient gEx ⟨[1], [2]⟩ ⟨[2], [1]⟩).length = 1 ∧
    ((ComputeBehavioralGradient gEx ⟨[1], [2]⟩ ⟨[2], [1]⟩).getD 0 []).getD 0 0
      = gEx.GetNodeDistance 1 2 / ((1 : ℚ) - (2 : ℚ)) := by
  have h := C1_behavioral_jacobian gEx ⟨[1], [2]⟩ ⟨[2], [1]⟩
  refine ⟨h.1, ?_⟩
  have h3 := h.2.2 0 0 (by decide) (by decide)
  simpa using h3

/-- C1 counterexample: with forbidden execution `(x_f, y_f) = ([2], [1])`
and current execution `(x_c, y_c) = ([1], [2])` on the state `gEx`
(`d_0 = 3`), the code computes `J[0][0] = 3 / (x_c[0] − x_f[0]) = −3`,
while the claim's formula `d_0 / (x_f[0] − x_c[0]) = 3 / (2 − 1)` gives
`3`. -/
theorem C1_counterexample :
    ((ComputeBehavioralGradient gEx ⟨[1], [2]⟩ ⟨[2], [1]⟩).getD 0 []).getD 0 0
      = -3 ∧
    gEx.GetNodeDistance 1 2 / (((2:ℕ) : ℚ) - ((1:ℕ) : ℚ)) = 3 ∧
    ((-3 : ℚ)) ≠ 3 := by
  refine ⟨?_, ?_, by norm_num⟩
  · simp +decide [ComputeBehavioralGradient, computeDy,
      ExploredGraph.GetNodeDistance, ExploredGraph.EmbeddingDistance,
      ExploredGraph.EmbeddingDistSq, ExploredGraph.GetNodeEmbedding, gEx,
      List.lookup, List.range_succ]
    norm_num [sqrtQ, Rat.sqrt]
  · have : gEx.GetNodeDistance 1 2 = 3 := by
      simp +decide [ExploredGraph.GetNodeDistance,
        ExploredGraph.EmbeddingDistance, ExploredGraph.EmbeddingDistSq,
        ExploredGraph.GetNodeEmbedding, gEx, List.lookup, List.range_succ]
      norm_num [sqrtQ, Rat.sqrt]
    rw [this]
    norm_num

/-! ### C5 — the mutator's byte update -/

theorem cbg_length (g : ExploredGraph) (fe1 fe2 : FuzzExecution) :
    (ComputeBehavioralGradient g fe1 fe2).length =
      max fe1.trace.length fe2.trace.length := by
  simp [ComputeBehavioralGradient]

theorem cbg_row_length (g : ExploredGraph) (fe1 fe2 : FuzzExecution) :
    ∀ row ∈ ComputeBehavioralGradient g fe1 fe2,
      row.length = max fe1.input.length fe2.input.length := by
  intro row hrow
  simp only [ComputeBehavioralGradient, List.mem_map] at hrow
  obtain ⟨i, _, rfl⟩ := hrow
  simp

theorem clgwt_length (g : ExploredGraph) (y1 y2 : ExecTrace) (dl : List ℚ)
    (h : ComputeLossGradientWithTrace g y1 y2 = some dl) :
    dl.length = max y1.length y2.length := by
  unfold ComputeLossGradientWithTrace at h
  split at h
  · cases h
  · injection h with h
    rw [← h]
    simp

theorem getD_le_255 (l : FuzzInput) (j : ℕ) (hb : ∀ b ∈ l, b < 256) :
    l.getD j 0 ≤ 255 := by
  by_cases hj : j < l.length
  · rw [List.getD_eq_getElem _ _ hj]
    exact Nat.lt_succ_iff.mp (hb _ (List.getElem_mem hj))
  · rw [List.getD_eq_default _ _ (by omega)]
    omega

/-- C5: whenever the mutator produces an output, it has one byte per column
of the Jacobian; a byte with exploration speed `≤ 0` is copied from the
current input (`0` past its end); otherwise the real-valued update
`u = x_c[j] − η[j]·(∂L/∂x)[j]` (with `∂L/∂x = Jᵀ·∂L/∂y`) is clamped to 0
when negative, reduced by `fmod(u, 256)` when above 255, rounded to the
nearest integer, and cast to an octet; every emitted byte lies in
`[0, 255]`. -/
theorem C5_update_clamping (g1 g2 : ExploredGraph) (fe_f fe_c : FuzzExecution)
    (eta : List ℚ) (out : FuzzInput)
    (hbytes : ∀ b ∈ fe_c.input, b < 256)
    (h : GenerateNewInputWithGradientDescent g1 g2 fe_f fe_c eta = some out) :
    out.length = max fe_f.input.length fe_c.input.length ∧
    ∀ j, j < max fe_f.input.length fe_c.input.length →
      out.getD j 0 ≤ 255 ∧
      (eta.getD j 0 ≤ 0 → out.getD j 0 = fe_c.input.getD j 0) ∧
      (0 < eta.getD j 0 → ∀ dL_dy,
        ComputeLossGradientWithTrace g1 fe_f.trace fe_c.trace = some dL_dy →
        out.getD j 0 = (roundQ (updClamp ((fe_c.input.getD j 0 : ℚ) -
          eta.getD j 0 *
          ((List.range (max fe_f.trace.length fe_c.trace.length)).map fun i =>
            ((ComputeBehavioralGradient g2 fe_f fe_c).getD i []).getD j 0 *
              dL_dy.getD i 0).sum))).toNat % 256) := by
  unfold GenerateNewInputWithGradientDescent at h
  split at h
  · cases h
  case _ dL_dy0 hL =>
  split_ifs at h with hemp hhead hdl hall hlen heta
  have hJlen := cbg_length g2 fe_f fe_c
  have hne : ComputeBehavioralGradient g2 fe_f fe_c ≠ [] := by
    intro hnil
    rw [hnil] at hemp
    exact hemp rfl
  have hheadmem : (ComputeBehavioralGradient g2 fe_f fe_c).headD [] ∈
      ComputeBehavioralGradient g2 fe_f fe_c := by
    cases hJ : ComputeBehavioralGradient g2 fe_f fe_c with
    | nil => exact absurd hJ hne
    | cons r t => exact List.mem_cons_self r t
  have hheadlen : ((ComputeBehavioralGradient g2 fe_f fe_c).headD []).length =
      max fe_f.input.length fe_c.input.length :=
    cbg_row_length g2 fe_f fe_c _ hheadmem
  injection h with h
  subst h
  constructor
  · rw [List.length_map, List.length_range]
    exact hheadlen
  · intro j hj
    have hjN : j < ((ComputeBehavioralGradient g2 fe_f fe_c).headD []).length := by
      omega
    rw [getD_range_map' _ _ hjN]
    refine ⟨?_, fun hfr => by rw [if_pos hfr], fun hpos dL_dy hdl => ?_⟩
    · split_ifs with hfr
      · exact getD_le_255 _ _ hbytes
      · exact Nat.lt_succ_iff.mp (Nat.mod_lt _ (by norm_num))
    · have hdleq : dL_dy = dL_dy0 := by
        rw [hdl] at hL
        exact Option.some.inj hL
      subst hdleq
      rw [if_neg (not_le.mpr hpos)]
      simp only [genDLdx]
      rw [getD_range_map' _ _ hjN, hJlen]

theorem C5_update_clamping_witness :
    (∀ b ∈ ([200] : FuzzInput), b < 256) ∧
    ([200] : FuzzInput).length = max ([2] : FuzzInput).length
      ([200] : FuzzInput).length := by
  have hGen : GenerateNewInputWithGradientDescent gEmpty gEmpty
      ⟨[1], [2]⟩ ⟨[2], [200]⟩ [1] = some [200] := by
    simp +decide [GenerateNewInputWithGradientDescent,
      ComputeLossGradientWithTrace, ComputeBehavioralGradient, computeDy,
      EmbeddingLossPost, ExploredGraph.MeanEmbedding, ExploredGraph.meanStep,
      CosineSimilarity, ExploredGraph.GetNodeDistance,
      ExploredGraph.GetNodeDistanceWithOrigin, ExploredGraph.EmbeddingDistance,
      ExploredGraph.EmbeddingDistSq, ExploredGraph.GetNodeEmbedding, gEmpty,
      List.lookup, List.range_succ, sqrtQ, Rat.sqrt, updClamp, roundQ,
      genDLdx, fmodQ]
    norm_num
    decide
  have h := C5_update_clamping gEmpty gEmpty ⟨[1], [2]⟩ ⟨[2], [200]⟩ [1] [200]
    (by decide) hGen
  exact ⟨by decide, h.1⟩

/-! ### C8 — graph monotonicity and invariants under absorbs -/

theorem lookup_append_of_isSome {α : Type} {l1 : List (ℕ × α)}
    (l2 : List (ℕ × α)) {m : ℕ} (h : (l1.lookup m).isSome) :
    (l1 ++ l2).lookup m = l1.lookup m := by
  induction l1 with
  | nil => simp at h
  | cons kv t ih =>
      obtain ⟨k, v⟩ := kv
      by_cases hm : m = k
      · subst hm
        simp [List.lookup_cons]
      · have hbeq : (m == k) = false := beq_eq_false_iff_ne.mpr hm
        simp only [List.cons_append, List.lookup_cons, hbeq] at h ⊢
        exact ih h

theorem lookup_append_of_none {α : Type} {l1 : List (ℕ × α)}
    (l2 : List (ℕ × α)) {m : ℕ} (h : l1.lookup m = none) :
    (l1 ++ l2).lookup m = l2.lookup m := by
  induction l1 with
  | nil => simp
  | cons kv t ih =>
      obtain ⟨k, v⟩ := kv
      by_cases hm : m = k
      · subst hm
        simp [List.lookup_cons] at h
      · have hbeq : (m == k) = false := beq_eq_false_iff_ne.mpr hm
        simp only [List.cons_append, List.lookup_cons, hbeq] at h ⊢
        exact ih h

theorem lookup_mem {α : Type} {l : List (ℕ × α)} {k : ℕ} {v : α}
    (h : l.lookup k = some v) : (k, v) ∈ l := by
  induction l with
  | nil => simp at h
  | cons kv t ih =>
      obtain ⟨k', v'⟩ := kv
      by_cases hm : k = k'
      · subst hm
        simp only [List.lookup_cons, beq_self_eq_true] at h
        injection h with h
        subst h
        exact List.mem_cons_self _ _
      · have hbeq : (k == k') = false := beq_eq_false_iff_ne.mpr hm
        simp only [List.lookup_cons, hbeq] at h
        exact List.mem_cons_of_mem _ (ih h)

theorem mem_assocSet {α : Type} {l : List (ℕ × α)} {key : ℕ} {v : α}
    {e : ℕ × α} (h : e ∈ assocSet l key v) : e ∈ l ∨ e = (key, v) := by
  unfold assocSet at h
  obtain ⟨kv, hkv, he⟩ := List.mem_map.mp h
  split_ifs at he
  · exact Or.inr he.symm
  · exact Or.inl (he ▸ hkv)

theorem assocSet_cons {α : Type} (k : ℕ) (w : α) (t : List (ℕ × α))
    (key : ℕ) (v : α) :
    assocSet ((k, w) :: t) key v =
      (if k = key then (key, v) else (k, w)) :: assocSet t key v := rfl

theorem lookup_assocSet_ne {α : Type} (l : List (ℕ × α)) {key m : ℕ}
    (v : α) (h : m ≠ key) : (assocSet l key v).lookup m = l.lookup m := by
  induction l with
  | nil => rfl
  | cons kv t ih =>
      obtain ⟨k, w⟩ := kv
      rw [assocSet_cons]
      by_cases hk : k = key
      · subst hk
        rw [if_pos rfl]
        have hbeq : (m == k) = false := beq_eq_false_iff_ne.mpr h
        simp only [List.lookup_cons, hbeq]
        exact ih
      · rw [if_neg hk]
        by_cases hm : m = k
        · subst hm
          simp [List.lookup_cons]
        · have hbeq : (m == k) = false := beq_eq_false_iff_ne.mpr hm
          simp only [List.lookup_cons, hbeq]
          exact ih

theorem lookup_assocSet_self {α : Type} {l : List (ℕ × α)} (key : ℕ)
    (v : α) (h : (l.lookup key).isSome) :
    (assocSet l key v).lookup key = some v := by
  induction l with
  | nil => simp at h
  | cons kv t ih =>
      obtain ⟨k, w⟩ := kv
      rw [assocSet_cons]
      by_cases hk : k = key
      · subst hk
        simp [List.lookup_cons]
      · rw [if_neg hk]
        have hbeq : (key == k) = false :=
          beq_eq_false_iff_ne.mpr (Ne.symm hk)
        simp only [List.lookup_cons, hbeq] at h ⊢
        exact ih h

namespace ExploredGraph

theorem addNodeKey_embeddings (g : ExploredGraph) (node : ℕ) :
    (addNodeKey g node).embeddings = g.embeddings := by
  unfold addNodeKey
  split_ifs <;> rfl

theorem addNodeKey_dim (g : ExploredGraph) (node : ℕ) :
    (addNodeKey g node).embedding_dim = g.embedding_dim := by
  unfold addNodeKey
  split_ifs <;> rfl

theorem addNodeKey_lookup_mono {g : ExploredGraph} {n : ℕ} (node : ℕ)
    (h : (g.graph.lookup n).isSome) :
    ((addNodeKey g node).graph.lookup n) = g.graph.lookup n := by
  unfold addNodeKey
  split_ifs
  · rfl
  · exact lookup_append_of_isSome _ h

theorem addNodeKey_lookup_self (g : ExploredGraph) (node : ℕ) :
    (((addNodeKey g node).graph.lookup node)).isSome = true := by
  unfold addNodeKey
  split_ifs with h
  · exact h
  · rw [lookup_append_of_none _ (Option.not_isSome_iff_eq_none.mp h)]
    simp [List.lookup_cons]

theorem addNodeKey_mem {g : ExploredGraph} {node : ℕ} {e : ℕ × List ℕ}
    (h : e ∈ (addNodeKey g node).graph) : e ∈ g.graph ∨ e = (node, []) := by
  unfold addNodeKey at h
  split_ifs at h
  · exact Or.inl h
  · rcases List.mem_append.mp h with h1 | h1
    · exact Or.inl h1
    · exact Or.inr (List.mem_singleton.mp h1)

theorem addNodeEmb_graph (noise : ℕ → ℕ → ℚ) (g : ExploredGraph) (node : ℕ) :
    (addNodeEmb noise g node).graph = g.graph := by
  unfold addNodeEmb
  split_ifs <;> rfl

theorem addNodeEmb_dim (noise : ℕ → ℕ → ℚ) (g : ExploredGraph) (node : ℕ) :
    (addNodeEmb noise g node).embedding_dim = g.embedding_dim := by
  unfold addNodeEmb
  split_ifs <;> rfl

theorem addNodeEmb_lookup_mono (noise : ℕ → ℕ → ℚ) {g : ExploredGraph}
    {n : ℕ} (node : ℕ) (h : (g.embeddings.lookup n).isSome) :
    (addNodeEmb noise g node).embeddings.lookup n = g.embeddings.lookup n := by
  unfold addNodeEmb
  split_ifs
  · rfl
  · exact lookup_append_of_isSome _ h

theorem addNodeEmb_lookup_self (noise : ℕ → ℕ → ℚ) (g : ExploredGraph)
    (node : ℕ) :
    ((addNodeEmb noise g node).embeddings.lookup node).isSome = true := by
  unfold addNodeEmb
  split_ifs with h
  · exact h
  · rw [lookup_append_of_none _ (Option.not_isSome_iff_eq_none.mp h)]
    simp [List.lookup_cons]

theorem addNodeEmb_mem {noise : ℕ → ℕ → ℚ} {g : ExploredGraph} {node : ℕ}
    {e : ℕ × Embedding} (h : e ∈ (addNodeEmb noise g node).embeddings) :
    e ∈ g.embeddings ∨
      e = (node, (List.range g.embedding_dim).map (noise node)) := by
  unfold addNodeEmb at h
  split_ifs at h
  · exact Or.inl h
  · rcases List.mem_append.mp h with h1 | h1
    · exact Or.inl h1
    · exact Or.inr (List.mem_singleton.mp h1)

theorem addEdge_embeddings (g : ExploredGraph) (node next : ℕ) :
    (addEdge g node next).embeddings = g.embeddings := by
  unfold addEdge
  split_ifs <;> rfl

theorem addEdge_dim (g : ExploredGraph) (node next : ℕ) :
    (addEdge g node next).embedding_dim = g.embedding_dim := by
  unfold addEdge
  split_ifs <;> rfl

theorem addEdge_nodeIn_mono {g : ExploredGraph} {m : ℕ} (node next : ℕ)
    (h : (g.graph.lookup m).isSome) :
    ((addEdge g node next).graph.lookup m).isSome = true := by
  unfold addEdge
  split_ifs
  · exact h
  · by_cases hm : m = node
    · subst hm
      rw [lookup_assocSet_self _ _ h]
      rfl
    · rw [lookup_assocSet_ne _ _ hm]
      exact h

theorem addEdge_edge_mono {g : ExploredGraph} {a b : ℕ} (node next : ℕ)
    (h : b ∈ (g.graph.lookup a).getD []) :
    b ∈ ((addEdge g node next).graph.lookup a).getD [] := by
  unfold addEdge
  split_ifs
  · exact h
  · by_cases ha : a = node
    · subst ha
      cases hl : g.graph.lookup a with
      | none => rw [hl] at h; simp at h
      | some v =>
          rw [lookup_assocSet_self _ _ (by rw [hl]; rfl)]
          rw [hl] at h
          exact List.mem_append_left _ h
    · rw [lookup_assocSet_ne _ _ ha]
      exact h

theorem addEdge_mem {g : ExploredGraph} {node next : ℕ} {e : ℕ × List ℕ}
    (h : e ∈ (addEdge g node next).graph) :
    e ∈ g.graph ∨ e = (node, (g.graph.lookup node).getD [] ++ [next]) := by
  unfold addEdge at h
  split_ifs at h
  · exact Or.inl h
  · exact mem_assocSet h

theorem absorbStep_dim (noise : ℕ → ℕ → ℚ) (g : ExploredGraph) (node : ℕ)
    (next? : Option ℕ) :
    (absorbStep noise g node next?).embedding_dim = g.embedding_dim := by
  unfold absorbStep
  cases next? with
  | none => rw [addNodeEmb_dim, addNodeKey_dim]
  | some next => rw [addEdge_dim, addNodeEmb_dim, addNodeKey_dim]

theorem absorbStep_nodeIn_mono (noise : ℕ → ℕ → ℚ) {g : ExploredGraph}
    {m : ℕ} (node : ℕ) (next? : Option ℕ)
    (h : (g.graph.lookup m).isSome) :
    ((absorbStep noise g node next?).graph.lookup m).isSome = true := by
  have hA : ((addNodeKey g node).graph.lookup m).isSome = true := by
    rw [addNodeKey_lookup_mono node h]
    exact h
  have hB : ((addNodeEmb noise (addNodeKey g node) node).graph.lookup
      m).isSome = true := by
    rw [addNodeEmb_graph]
    exact hA
  unfold absorbStep
  cases next? with
  | none => exact hB
  | some next => exact addEdge_nodeIn_mono node next hB

theorem absorbStep_nodeIn_self (noise : ℕ → ℕ → ℚ) (g : ExploredGraph)
    (node : ℕ) (next? : Option ℕ) :
    ((absorbStep noise g node next?).graph.lookup node).isSome = true := by
  have hB : ((addNodeEmb noise (addNodeKey g node) node).graph.lookup
      node).isSome = true := by
    rw [addNodeEmb_graph]
    exact addNodeKey_lookup_self g node
  unfold absorbStep
  cases next? with
  | none => exact hB
  | some next => exact addEdge_nodeIn_mono node next hB

theorem absorbStep_edge_mono (noise : ℕ → ℕ → ℚ) {g : ExploredGraph}
    {a b : ℕ} (node : ℕ) (next? : Option ℕ)
    (h : b ∈ (g.graph.lookup a).getD []) :
    b ∈ ((absorbStep noise g node next?).graph.lookup a).getD [] := by
  have hA : b ∈ ((addNodeKey g node).graph.lookup a).getD [] := by
    by_cases hs : (g.graph.lookup a).isSome
    · rw [addNodeKey_lookup_mono node hs]
      exact h
    · rw [Option.not_isSome_iff_eq_none.mp hs] at h
      simp at h
  have hB : b ∈ ((addNodeEmb noise (addNodeKey g node) node).graph.lookup
      a).getD [] := by
    rw [addNodeEmb_graph]
    exact hA
  unfold absorbStep
  cases next? with
  | none => exact hB
  | some next => exact addEdge_edge_mono node next hB

theorem absorbStep_emb_mono (noise : ℕ → ℕ → ℚ) {g : ExploredGraph}
    {m : ℕ} (node : ℕ) (next? : Option ℕ)
    (h : (g.embeddings.lookup m).isSome) :
    ((absorbStep noise g node next?).embeddings.lookup m).isSome = true := by
  have hB : ((addNodeEmb noise (addNodeKey g node) node).embeddings.lookup
      m).isSome = true := by
    rw [addNodeEmb_lookup_mono noise node (by rw [addNodeKey_embeddings]; exact h)]
    rw [addNodeKey_embeddings]
    exact h
  unfold absorbStep
  cases next? with
  | none => exact hB
  | some next =>
      rw [addEdge_embeddings]
      exact hB

theorem absorbStep_emb_self (noise : ℕ → ℕ → ℚ) (g : ExploredGraph)
    (node : ℕ) (next? : Option ℕ) :
    ((absorbStep noise g node next?).embeddings.lookup node).isSome = true := by
  unfold absorbStep
  cases next? with
  | none => exact addNodeEmb_lookup_self noise _ node
  | some next =>
      rw [addEdge_embeddings]
      exact addNodeEmb_lookup_self noise _ node

theorem absorbStep_emb_mem {noise : ℕ → ℕ → ℚ} {g : ExploredGraph}
    {node : ℕ} {next? : Option ℕ} {e : ℕ × Embedding}
    (h : e ∈ (absorbStep noise g node next?).embeddings) :
    e ∈ g.embeddings ∨
      e = (node, (List.range g.embedding_dim).map (noise node)) := by
  unfold absorbStep at h
  have key : ∀ e ∈ (addNodeEmb noise (addNodeKey g node) node).embeddings,
      e ∈ g.embeddings ∨
        e = (node, (List.range g.embedding_dim).map (noise node)) := by
    intro e' he'
    rcases addNodeEmb_mem he' with h1 | h1
    · rw [addNodeKey_embeddings] at h1
      exact Or.inl h1
    · rw [addNodeKey_dim] at h1
      exact Or.inr h1
  cases next? with
  | none => exact key e h
  | some next =>
      rw [addEdge_embeddings] at h
      exact key e h

theorem addNodeKey_lookup_getD (g : ExploredGraph) (node : ℕ) :
    ((addNodeKey g node).graph.lookup node).getD [] =
      (g.graph.lookup node).getD [] := by
  unfold addNodeKey
  split_ifs with h
  · rfl
  · rw [lookup_append_of_none _ (Option.not_isSome_iff_eq_none.mp h),
      Option.not_isSome_iff_eq_none.mp h]
    simp [List.lookup_cons]

theorem addEdge_mem' {g : ExploredGraph} {node next : ℕ} {e : ℕ × List ℕ}
    (h : e ∈ (addEdge g node next).graph) :
    e ∈ g.graph ∨ (next ∉ (g.graph.lookup node).getD [] ∧
      e = (node, (g.graph.lookup node).getD [] ++ [next])) := by
  unfold addEdge at h
  split_ifs at h with hc
  · exact Or.inl h
  · rcases mem_assocSet h with h1 | h1
    · exact Or.inl h1
    · exact Or.inr ⟨hc, h1⟩

theorem absorbStep_graph_mem {noise : ℕ → ℕ → ℚ} {g : ExploredGraph}
    {node : ℕ} {next? : Option ℕ} {e : ℕ × List ℕ}
    (h : e ∈ (absorbStep noise g node next?).graph) :
    e ∈ g.graph ∨ e = (node, []) ∨
      (∃ next, next? = some next ∧ next ∉ (g.graph.lookup node).getD [] ∧
        e = (node, (g.graph.lookup node).getD [] ++ [next])) := by
  have key : ∀ e' ∈ (addNodeEmb noise (addNodeKey g node) node).graph,
      e' ∈ g.graph ∨ e' = (node, []) := by
    intro e' he'
    rw [addNodeEmb_graph] at he'
    exact addNodeKey_mem he'
  unfold absorbStep at h
  cases next? with
  | none => exact (key e h).imp id Or.inl
  | some next =>
      rcases addEdge_mem' h with h1 | ⟨hnm, h1⟩
      · exact (key e h1).imp id Or.inl
      · rw [addNodeEmb_graph, addNodeKey_lookup_getD] at hnm h1
        exact Or.inr (Or.inr ⟨next, rfl, hnm, h1⟩)

theorem absorbStep_inv (noise : ℕ → ℕ → ℚ) (g : ExploredGraph) (node : ℕ)
    (rest : List ℕ)
    (hkeys : ∀ e ∈ g.graph, (g.embeddings.lookup e.1).isSome = true)
    (hdims : ∀ e ∈ g.embeddings, e.2.length = g.embedding_dim)
    (hnodup : ∀ e ∈ g.graph, e.2.Nodup)
    (hclo : ClosureExcept g (node :: rest)) :
    (∀ e ∈ (absorbStep noise g node rest.head?).graph,
      ((absorbStep noise g node rest.head?).embeddings.lookup e.1).isSome
        = true) ∧
    (∀ e ∈ (absorbStep noise g node rest.head?).embeddings,
      e.2.length = (absorbStep noise g node rest.head?).embedding_dim) ∧
    (∀ e ∈ (absorbStep noise g node rest.head?).graph, e.2.Nodup) ∧
    ClosureExcept (absorbStep noise g node rest.head?) rest := by
  have hnbr_nodup : ((g.graph.lookup node).getD []).Nodup := by
    cases hl : g.graph.lookup node with
    | none => simp
    | some v => exact hnodup (node, v) (lookup_mem hl)
  refine ⟨fun e he => ?_, fun e he => ?_, fun e he => ?_,
    fun e he m hm => ?_⟩
  · rcases absorbStep_graph_mem he with h1 | h1 | ⟨next, _, _, h1⟩
    · exact absorbStep_emb_mono noise node _ (hkeys e h1)
    · rw [h1]
      exact absorbStep_emb_self noise g node _
    · rw [h1]
      exact absorbStep_emb_self noise g node _
  · rw [absorbStep_dim]
    rcases absorbStep_emb_mem he with h1 | h1
    · exact hdims e h1
    · rw [h1]
      simp
  · rcases absorbStep_graph_mem he with h1 | h1 | ⟨next, _, hnm, h1⟩
    · exact hnodup e h1
    · rw [h1]
      simp
    · rw [h1]
      simp only [List.nodup_append, List.nodup_cons, List.not_mem_nil,
        not_false_eq_true, List.nodup_nil, and_true, true_and]
      refine ⟨hnbr_nodup, ?_⟩
      intro x hx hx1
      rw [List.mem_singleton] at hx1
      exact hnm (hx1 ▸ hx)
  · rcases absorbStep_graph_mem he with h1 | h1 | ⟨next, hnext, _, h1⟩
    · rcases hclo e h1 m hm with h2 | h2
      · exact Or.inl (absorbStep_nodeIn_mono noise node _ h2)
      · rcases List.mem_cons.mp h2 with h3 | h3
        · subst h3
          exact Or.inl (absorbStep_nodeIn_self noise g m _)
        · exact Or.inr h3
    · rw [h1] at hm
      simp at hm
    · rw [h1] at hm
      obtain ⟨rest', hrest⟩ : ∃ rest', rest = next :: rest' := by
        cases rest with
        | nil => cases hnext
        | cons r t =>
            injection hnext with hnext
            exact ⟨t, by rw [hnext]⟩
      rcases List.mem_append.mp hm with h2 | h2
      · cases hl : g.graph.lookup node with
        | none => rw [hl] at h2; simp at h2
        | some v =>
            rw [hl] at h2
            rcases hclo (node, v) (lookup_mem hl) m h2 with h3 | h3
            · exact Or.inl (absorbStep_nodeIn_mono noise node _ h3)
            · rcases List.mem_cons.mp h3 with h4 | h4
              · subst h4
                exact Or.inl (absorbStep_nodeIn_self noise g m _)
              · exact Or.inr h4
      · rw [List.mem_singleton] at h2
        subst h2
        rw [hrest]
        exact Or.inr (List.mem_cons_self _ _)

theorem absorbGo_nodeIn_mono (noise : ℕ → ℕ → ℚ) :
    ∀ (trace : ExecTrace) (g : ExploredGraph) (m : ℕ),
    (g.graph.lookup m).isSome = true →
    ((absorbGo noise g trace).graph.lookup m).isSome = true := by
  intro trace
  induction trace with
  | nil => intro g m h; exact h
  | cons node rest ih =>
      intro g m h
      exact ih _ m (absorbStep_nodeIn_mono noise node _ h)

theorem absorbGo_edge_mono (noise : ℕ → ℕ → ℚ) :
    ∀ (trace : ExecTrace) (g : ExploredGraph) (a b : ℕ),
    b ∈ (g.graph.lookup a).getD [] →
    b ∈ ((absorbGo noise g trace).graph.lookup a).getD [] := by
  intro trace
  induction trace with
  | nil => intro g a b h; exact h
  | cons node rest ih =>
      intro g a b h
      exact ih _ a b (absorbStep_edge_mono noise node _ h)

theorem absorbGo_inv (noise : ℕ → ℕ → ℚ) :
    ∀ (trace : ExecTrace) (g : ExploredGraph),
    (∀ e ∈ g.graph, (g.embeddings.lookup e.1).isSome = true) →
    (∀ e ∈ g.embeddings, e.2.length = g.embedding_dim) →
    (∀ e ∈ g.graph, e.2.Nodup) →
    ClosureExcept g trace →
    (∀ e ∈ (absorbGo noise g trace).graph,
      ((absorbGo noise g trace).embeddings.lookup e.1).isSome = true) ∧
    (∀ e ∈ (absorbGo noise g trace).embeddings,
      e.2.length = (absorbGo noise g trace).embedding_dim) ∧
    (∀ e ∈ (absorbGo noise g trace).graph, e.2.Nodup) ∧
    ClosureExcept (absorbGo noise g trace) [] := by
  intro trace
  induction trace with
  | nil => intro g h1 h2 h3 h4; exact ⟨h1, h2, h3, h4⟩
  | cons node rest ih =>
      intro g h1 h2 h3 h4
      obtain ⟨s1, s2, s3, s4⟩ := absorbStep_inv noise g node rest h1 h2 h3 h4
      exact ih _ s1 s2 s3 s4

end ExploredGraph

/-- C8: across any sequence of trace absorbs, the node set and the edge set
of the graph are monotonically non-decreasing, and the graph invariants are
preserved: every adjacency key has an embedding, every stored embedding has
exactly `embedding_dim` components, every neighbor is itself an adjacency
key, and no adjacency list holds a duplicate edge (an edge is added at most
once per source). -/
theorem C8_graph_monotonicity (noise : ℕ → ℕ → ℚ) (g : ExploredGraph)
    (traces : List ExecTrace) :
    (∀ n, nodeIn g n = true →
      nodeIn (traces.foldl (ExploredGraph.UpdateGraphFromTrace noise) g) n
        = true) ∧
    (∀ a b, edgeIn g a b →
      edgeIn (traces.foldl (ExploredGraph.UpdateGraphFromTrace noise) g) a b) ∧
    (GraphInv g →
      GraphInv (traces.foldl (ExploredGraph.UpdateGraphFromTrace noise) g)) := by
  induction traces generalizing g with
  | nil => exact ⟨fun n h => h, fun a b h => h, fun h => h⟩
  | cons tr rest ih =>
      obtain ⟨ih1, ih2, ih3⟩ :=
        ih (ExploredGraph.UpdateGraphFromTrace noise g tr)
      refine ⟨fun n h => ih1 n ?_, fun a b h => ih2 a b ?_, fun h => ih3 ?_⟩
      · exact ExploredGraph.absorbGo_nodeIn_mono noise tr g n h
      · exact ExploredGraph.absorbGo_edge_mono noise tr g a b h
      · obtain ⟨h1, h2, h3, h4⟩ := h
        have hclo : ClosureExcept g tr := fun e he m hm => Or.inl (h3 e he m hm)
        obtain ⟨s1, s2, s3, s4⟩ :=
          ExploredGraph.absorbGo_inv noise tr g h1 h2 h4 hclo
        exact ⟨s1, s2, fun e he m hm => (s4 e he m hm).resolve_right
          (List.not_mem_nil m), s3⟩

theorem C8_graph_monotonicity_witness :
    nodeIn (([[1, 2]] : List ExecTrace).foldl
      (ExploredGraph.UpdateGraphFromTrace zeroNoise) gEx) 1 = true ∧
    GraphInv (([[1, 2]] : List ExecTrace).foldl
      (ExploredGraph.UpdateGraphFromTrace zeroNoise) gEx) := by
  constructor
  · exact (C8_graph_monotonicity zeroNoise gEx [[1, 2]]).1 1 (by decide)
  · refine (C8_graph_monotonicity zeroNoise gEx [[1, 2]]).2.2 ?_
    refine ⟨by decide, by decide, by decide, by decide⟩

/-! ### C7 — checkpoint round-trip -/

theorem readN_tokens {α : Type} (tok : α → Token)
    (rd : List Token → Option (α × List Token))
    (hrd : ∀ (a : α) (rest : List Token), rd (tok a :: rest) = some (a, rest))
    (v : List α) (rest : List Token) :
    readN rd v.length (v.map tok ++ rest) = some (v, rest) := by
  induction v with
  | nil => simp [readN]
  | cons a t ih =>
      simp only [List.map_cons, List.length_cons, List.cons_append, readN,
        hrd a, ih]

theorem readN_flat {α : Type} (wr : α → List Token)
    (rd : List Token → Option (α × List Token)) (v : List α)
    (hrd : ∀ a ∈ v, ∀ rest, rd (wr a ++ rest) = some (a, rest)) :
    ∀ rest, readN rd v.length ((v.map wr).flatten ++ rest) = some (v, rest) := by
  induction v with
  | nil => intro rest; simp [readN]
  | cons a t ih =>
      intro rest
      have h1 := hrd a (List.mem_cons_self a t) ((t.map wr).flatten ++ rest)
      have h2 := ih (fun b hb rest' =>
        hrd b (List.mem_cons_of_mem a hb) rest') rest
      simp only [List.map_cons, List.flatten_cons, List.length_cons,
        List.append_assoc, readN, h1, h2]

theorem ReadString_roundtrip (s : String) (rest : List Token) :
    ReadString (WriteString s ++ rest) = some (s, rest) := by
  simp [ReadString, WriteString, readW]

theorem ReadU32Vector_roundtrip (v : List ℕ) (rest : List Token) :
    ReadU32Vector (WriteU32Vector v ++ rest) = some (v, rest) := by
  simp only [ReadU32Vector, WriteU32Vector, List.cons_append]
  simp [readW, readN_tokens Token.w readW (fun a rest => rfl) v rest]

theorem ReadU8Vector_roundtrip (v : FuzzInput) (rest : List Token) :
    ReadU8Vector (WriteU8Vector v ++ rest) = some (v, rest) := by
  simp only [ReadU8Vector, WriteU8Vector, List.cons_append]
  simp [readW, readN_tokens Token.byte readByte (fun a rest => rfl) v rest]

theorem ReadEmbedding_roundtrip (e : Embedding) (rest : List Token) :
    ReadEmbedding (WriteEmbedding e ++ rest) = some (e, rest) := by
  simp only [ReadEmbedding, WriteEmbedding, List.cons_append]
  simp [readW, readN_tokens Token.d ReadDouble (fun a rest => rfl) e rest]

theorem ReadFuzzExecution_roundtrip (exec : FuzzExecution)
    (rest : List Token) :
    ReadFuzzExecution (WriteFuzzExecution exec ++ rest) = some (exec, rest) := by
  simp [ReadFuzzExecution, WriteFuzzExecution, List.append_assoc,
    ReadU32Vector_roundtrip, ReadU8Vector_roundtrip]

theorem readAdjEntry_roundtrip (entry : ℕ × List ℕ) (rest : List Token) :
    readAdjEntry ((Token.w entry.1 :: WriteU32Vector entry.2) ++ rest) =
      some (entry, rest) := by
  simp [readAdjEntry, readW, ReadU32Vector_roundtrip]

theorem readEmbEntry_roundtrip (dim : ℕ) (entry : ℕ × Embedding)
    (hdim : entry.2.length = dim) (rest : List Token) :
    readEmbEntry dim ((Token.w entry.1 :: WriteEmbedding entry.2) ++ rest) =
      some (entry, rest) := by
  simp [readEmbEntry, readW, ReadEmbedding_roundtrip, hdim]

theorem readSettings_roundtrip (s : Settings) (rest : List Token) :
    readSettings (SerializeSettings s ++ rest) = some (s, rest) := by
  simp [readSettings, SerializeSettings, readW, List.append_assoc,
    ReadString_roundtrip]

theorem readParams_roundtrip (g : ExploredGraph) (rest : List Token) :
    readParams ([Token.w g.embedding_dim] ++ [Token.d g.p, Token.d g.q,
      Token.w g.walk_length, Token.w g.num_walks, Token.w g.window_size,
      Token.d g.learning_rate] ++ rest) =
      some ((g.embedding_dim, g.p, g.q, g.walk_length, g.num_walks,
        g.window_size, g.learning_rate), rest) := by
  simp [readParams, readW, ReadDouble]

theorem readAdjList_roundtrip (adj : List (ℕ × List ℕ)) (rest : List Token) :
    readAdjList ([Token.w adj.length] ++
      (adj.map fun entry => Token.w entry.1 :: WriteU32Vector entry.2).flatten
      ++ rest) = some (adj, rest) := by
  have hadj := readN_flat (fun entry => Token.w entry.1 :: WriteU32Vector
    entry.2) readAdjEntry adj (fun a _ rest' => readAdjEntry_roundtrip a rest')
  simp [readAdjList, readW, hadj]

theorem readEmbTable_roundtrip (dim : ℕ) (embs : List (ℕ × Embedding))
    (hdims : ∀ e ∈ embs, e.2.length = dim) (rest : List Token) :
    readEmbTable dim ([Token.w embs.length] ++
      (embs.map fun entry => Token.w entry.1 :: WriteEmbedding entry.2).flatten
      ++ rest) = some (embs, rest) := by
  have hemb := readN_flat (fun entry => Token.w entry.1 :: WriteEmbedding
    entry.2) (readEmbEntry dim) embs
    (fun a ha rest' => readEmbEntry_roundtrip dim a (hdims a ha) rest')
  simp [readEmbTable, readW, hemb]

theorem readGraphPayload_roundtrip (g : ExploredGraph)
    (hdims : ∀ e ∈ g.embeddings, e.2.length = g.embedding_dim)
    (hzero : g.ZERO_EMBEDDING.length = g.embedding_dim) (rest : List Token) :
    readGraphPayload (SerializeGraphPayload g ++ rest) = some (g, rest) := by
  have h1 := readParams_roundtrip g ([Token.w g.graph.length] ++
    (g.graph.map fun entry => Token.w entry.1 :: WriteU32Vector
      entry.2).flatten ++ ([Token.w g.embeddings.length] ++
    (g.embeddings.map fun entry => Token.w entry.1 :: WriteEmbedding
      entry.2).flatten ++ (WriteEmbedding g.ZERO_EMBEDDING ++ rest)))
  have h2 := readAdjList_roundtrip g.graph ([Token.w g.embeddings.length] ++
    (g.embeddings.map fun entry => Token.w entry.1 :: WriteEmbedding
      entry.2).flatten ++ (WriteEmbedding g.ZERO_EMBEDDING ++ rest))
  have h3 := readEmbTable_roundtrip g.embedding_dim g.embeddings hdims
    (WriteEmbedding g.ZERO_EMBEDDING ++ rest)
  simp only [SerializeGraphPayload, List.append_assoc]
  simp only [readGraphPayload, List.append_assoc] at h1 h2 h3 ⊢
  rw [h1]
  simp only [Option.bind_eq_bind, Option.some_bind]
  rw [h2]
  simp only [Option.some_bind]
  rw [h3]
  simp only [Option.some_bind]
  rw [ReadEmbedding_roundtrip]
  simp only [Option.some_bind, hzero, if_pos]

/-- C7: serializing a knowledge store and deserializing the result on a
machine of the same endianness restores the store exactly — settings, ring
contents, ring write index, graph adjacency list, embedding table, all
Node2Vec parameters and the zero embedding — under the store's invariants
(the ring has exactly `max_history_count` slots, the write index is in
range, and every stored embedding has `embedding_dim` components; all hold
for every store the program builds, and the deserializer validates them as
corruption checks). -/
theorem C7_checkpoint_roundtrip (machine_le : Bool) (k : FuzzerKnowledge)
    (hhist : k.history.length = k.settings.max_history_count)
    (hidx : k.history_index < k.settings.max_history_count)
    (hdims : ∀ e ∈ k.graph.embeddings, e.2.length = k.graph.embedding_dim)
    (hzero : k.graph.ZERO_EMBEDDING.length = k.graph.embedding_dim) :
    DeserializeKnowledge machine_le (SerializeKnowledge machine_le k) =
      some k := by
  have hexec := readN_flat WriteFuzzExecution ReadFuzzExecution k.history
    (fun a _ rest' => ReadFuzzExecution_roundtrip a rest')
  have hg := readGraphPayload_roundtrip k.graph hdims hzero []
  rw [List.append_nil] at hg
  simp [DeserializeKnowledge, SerializeKnowledge, readBool, readW,
    List.append_assoc, readSettings_roundtrip, hhist, hidx]
  rw [← hhist, hexec (SerializeGraphPayload k.graph)]
  simp [hg]

theorem C7_checkpoint_roundtrip_witness :
    kEx.history.length = kEx.settings.max_history_count ∧
    DeserializeKnowledge true (SerializeKnowledge true kEx) = some kEx := by
  refine ⟨by decide, ?_⟩
  exact C7_checkpoint_roundtrip true kEx (by decide) (by decide)
    (by decide) (by decide)

end VectorFuzz
